import Mathlib

/-!
Shallow embedding of the recursively nested ordered container implemented in
deep_ordered_dict.py (class DeepOrderedDict, a customization of
collections.OrderedDict), together with proofs about its deep operations.

Modelling conventions:
  - a level of the container is an association list `List (Nat × DVal)` in
    iteration (insertion) order; keys are modelled as natural numbers and
    leaf values as integers;
  - a value is either a leaf or a nested container (`DVal`);
  - Python dict keys are unique within a level; where an operation relies on
    that invariant a `Nodup` hypothesis appears in the theorem;
  - raised exceptions are modelled by `Option`/`Except` error results;
  - Python equality on values is modelled structurally (`dvalBeq`).
-/

inductive DVal : Type where
  | leaf : Int → DVal
  | node : List (Nat × DVal) → DVal
deriving Repr

/-- The key view of a level: `self.keys()` in iteration order. -/
def keysOf (l : List (Nat × DVal)) : List Nat := l.map Prod.fst

/-- The value view of a level: `self.values()` in iteration order. -/
def valsOf (l : List (Nat × DVal)) : List DVal := l.map Prod.snd

/-- `self[k]`: the value bound to the first entry with key `k`. -/
def lookupFirst : List (Nat × DVal) → Nat → Option DVal
  | [], _ => none
  | (a, v) :: t, k => if a = k then some v else lookupFirst t k

/-- Remove the first entry with key `k` (helper for the single-level move). -/
def eraseKeyFirst : List (Nat × DVal) → Nat → List (Nat × DVal)
  | [], _ => []
  | (a, v) :: t, k => if a = k then t else (a, v) :: eraseKeyFirst t k

/-- Replace the value of the first entry with key `k` (in-place mutation of
the child object bound at `k`). -/
def setFirst : List (Nat × DVal) → Nat → DVal → List (Nat × DVal)
  | [], _, _ => []
  | (a, v) :: t, k, w => if a = k then (a, w) :: t else (a, v) :: setFirst t k w

/-- `OrderedDict.move_to_end(self, key, last)`: relocate the entry of `key` to
the end (`last = true`) or the front (`last = false`) of the iteration order,
keeping the relative order of all other entries; `none` models the KeyError
raised when `key` is absent. -/
def odMoveToEnd (l : List (Nat × DVal)) (k : Nat) (last : Bool) :
    Option (List (Nat × DVal)) :=
  match lookupFirst l k with
  | none => none
  | some v =>
      some (if last then eraseKeyFirst l k ++ [(k, v)] else (k, v) :: eraseKeyFirst l k)

mutual
/-- Structural equality of values, modelling the Python `==` used by the
membership test `target in self.values()`.  (Python dict equality ignores
iteration order; none of the verified claims depends on that difference.) -/
def dvalBeq : DVal → DVal → Bool
  | DVal.leaf a, DVal.leaf b => decide (a = b)
  | DVal.node a, DVal.node b => entsBeq a b
  | _, _ => false
termination_by v _ => (sizeOf v, 0)

def entsBeq : List (Nat × DVal) → List (Nat × DVal) → Bool
  | [], [] => true
  | (a, v) :: t, (b, w) :: u => decide (a = b) && dvalBeq v w && entsBeq t u
  | _, _ => false
termination_by l _ => (sizeOf l, 1)
end

mutual
/-- `DeepOrderedDict.__contains__(self, target, by_key=True, depth=-1)` with
`by_key = true`: the method first walks every child value, recursing (with
`depth - 1`) into the ones that are containers — a leaf raises
TypeError/AttributeError which is caught and skipped — and finally also tests
`target` against the current level keys; the recursion is attempted only when
`depth != 0`. -/
def containsKeyD : List (Nat × DVal) → Nat → Int → Bool
  | l, t, d => (decide (d ≠ 0) && anyKeyChild l t (d - 1)) || decide (t ∈ keysOf l)
termination_by l _ _ => (sizeOf l, 1)

def anyKeyChild : List (Nat × DVal) → Nat → Int → Bool
  | [], _, _ => false
  | (_, DVal.leaf _) :: rest, t, d => anyKeyChild rest t d
  | (_, DVal.node ch) :: rest, t, d => containsKeyD ch t d || anyKeyChild rest t d
termination_by l _ _ => (sizeOf l, 0)
end

mutual
/-- `DeepOrderedDict.__contains__` with `by_key = false`: the direct test is
against the current level values instead of the keys. -/
def containsValD : List (Nat × DVal) → DVal → Int → Bool
  | l, t, d =>
      (decide (d ≠ 0) && anyValChild l t (d - 1)) || (valsOf l).any (fun v => dvalBeq v t)
termination_by l _ _ => (sizeOf l, 1)

def anyValChild : List (Nat × DVal) → DVal → Int → Bool
  | [], _, _ => false
  | (_, DVal.leaf _) :: rest, t, d => anyValChild rest t d
  | (_, DVal.node ch) :: rest, t, d => containsValD ch t d || anyValChild rest t d
termination_by l _ _ => (sizeOf l, 0)
end

/-- The plain membership operator `k in d`: Python dispatches to the
overridden `__contains__` with its default arguments `by_key = True` and
`depth = -1`. -/
def inOp (l : List (Nat × DVal)) (k : Nat) : Bool := containsKeyD l k (-1)

mutual
/-- `DeepOrderedDict.move_to_end(self, key, last=True, depth=-1)`.

`dMove` returns the final state of the level together with the `moved` flag;
the caller raises KeyError when the flag is false (see `moveToEnd`).

Step 1 tries the single-level `OrderedDict.move_to_end` (a KeyError is
swallowed).  If `depth != 0` the method then walks a snapshot of the keys
taken after step 1 (the loop `for i in [x for x in self.keys()]`); since dict
keys are unique and the walk never rebinds a key it has not reached yet,
walking a snapshot of the entries is the same walk, which is how `dLoop`
receives the snapshot.  For each snapshot entry whose value is a container
(`self[i].keys()` raises for a leaf, which is caught and skipped) the code
tests `key in [x for x in self[i].keys()]` — membership of `key` in the list
of the child immediate keys — and if it holds, recursively moves inside the
child with `depth - 1` and then relocates the parent entry `i` itself with
the single-level move. -/
def dMove : List (Nat × DVal) → Nat → Bool → Int → (List (Nat × DVal) × Bool)
  | l, key, last, depth =>
    match h : odMoveToEnd l key last with
    | some l1 => if depth = 0 then (l1, true) else dLoop l1 l1 true key last depth
    | none => if depth = 0 then (l, false) else dLoop l l false key last depth
termination_by l _ _ _ => (sizeOf l, 1)
decreasing_by
  · have haux : ∀ (m : List (Nat × DVal)) (k : Nat) (v : DVal),
        lookupFirst m k = some v →
          sizeOf ((k, v) :: eraseKeyFirst m k) = sizeOf m := by
      intro m k
      induction m with
      | nil => intro v hv; simp [lookupFirst] at hv
      | cons e t ih =>
          intro v hv
          obtain ⟨a, w⟩ := e
          by_cases hak : a = k
          · subst hak
            simp [lookupFirst] at hv
            subst hv
            simp [eraseKeyFirst]
          · simp [lookupFirst, hak] at hv
            have := ih v hv
            simp [eraseKeyFirst, hak] at *
            omega
    have happ : ∀ (r : List (Nat × DVal)) (e : Nat × DVal),
        sizeOf (r ++ [e]) = sizeOf (e :: r) := by
      intro r e
      induction r with
      | nil => simp
      | cons f t ih => simp at *; omega
    have hsz : sizeOf l1 = sizeOf l := by
      unfold odMoveToEnd at h
      rcases hl : lookupFirst l key with _ | v
      · rw [hl] at h; simp at h
      · rw [hl] at h
        simp at h
        rcases last with _ | _
        · simp at h; rw [← h]; exact haux l key v hl
        · simp at h; rw [← h]; rw [happ]; exact haux l key v hl
    simp_wf
    rw [hsz]
    exact Prod.Lex.right _ (by omega)
  · simp_wf
    exact Prod.Lex.right _ (by omega)

def dLoop :
    List (Nat × DVal) → List (Nat × DVal) → Bool → Nat → Bool → Int →
      (List (Nat × DVal) × Bool)
  | [], st, mv, _, _, _ => (st, mv)
  | (i, DVal.node ch) :: rest, st, mv, key, last, depth =>
      if key ∈ keysOf ch then
        let ch1 := (dMove ch key last (depth - 1)).1
        let st1 := setFirst st i (DVal.node ch1)
        let st2 := match odMoveToEnd st1 i last with
          | some s => s
          | none => st1
        dLoop rest st2 true key last depth
      else dLoop rest st mv key last depth
  | _ :: rest, st, mv, key, last, depth => dLoop rest st mv key last depth
termination_by snap _ _ _ _ _ => (sizeOf snap, 0)
decreasing_by
  all_goals simp_wf
  all_goals apply Prod.Lex.left
  all_goals simp_arith
end

/-- `DeepOrderedDict.move_to_end` as seen by the caller: `none` models the
KeyError raised when nothing was moved. -/
def moveToEnd (l : List (Nat × DVal)) (key : Nat) (last : Bool) (depth : Int) :
    Option (List (Nat × DVal)) :=
  match dMove l key last depth with
  | (l1, true) => some l1
  | (_, false) => none

/-- The recognized values of the `what` keyword argument of `get_end`
(the string validation branch that raises ValueError on anything else is
modelled by this enumeration). -/
inductive What : Type where
  | key : What
  | val : What
  | item : What
deriving Repr, DecidableEq

/-- The result of `get_end`: a key, a value, or a (key, value) pair. -/
inductive GE : Type where
  | key : Nat → GE
  | val : DVal → GE
  | item : Nat → DVal → GE
deriving Repr

/-- Formatting of the boundary entry per the `what` argument. -/
def fmtGE : What → Nat → DVal → GE
  | What.key, k, _ => GE.key k
  | What.val, _, v => GE.val v
  | What.item, k, v => GE.item k v

/-- Python truthiness of a `get_end` result, used by the `if not item:` test:
the integer 0, an empty dict and the integer key 0 are falsy; a (key, value)
tuple is always truthy. -/
def truthyGE : GE → Bool
  | GE.key n => decide (n ≠ 0)
  | GE.val (DVal.leaf i) => decide (i ≠ 0)
  | GE.val (DVal.node l) => !l.isEmpty
  | GE.item _ _ => true

/-- The boundary entry of a level: the last entry when `last = true`, the
first one otherwise (`list(self.keys())[idx]` with `idx` -1 or 0, and the
value `self[end_key]` it is bound to — the same entry, keys being unique). -/
def boundEntry (l : List (Nat × DVal)) (last : Bool) : Option (Nat × DVal) :=
  if last then l.getLast? else l.head?

/-- `DeepOrderedDict.get_end(self, what=..., last=True, depth=-1)`.

Reads the boundary entry (IndexError on an empty level: `none`).  When
`depth != 0` and the boundary value is a container it recurses with
`depth - 1` (for a leaf the AttributeError is caught and the recursion result
stays `False`); an IndexError escaping the recursion propagates.  The
recursive result is kept only if it is truthy (`if not item:`), otherwise the
current level boundary entry is formatted per `what` and returned. -/
def getEnd : List (Nat × DVal) → What → Bool → Int → Option GE
  | l, what, last, depth =>
    match h : boundEntry l last with
    | none => none
    | some (ek, DVal.leaf n) => some (fmtGE what ek (DVal.leaf n))
    | some (ek, DVal.node ch) =>
        if depth ≠ 0 then
          match getEnd ch what last (depth - 1) with
          | none => none
          | some r =>
              if truthyGE r then some r else some (fmtGE what ek (DVal.node ch))
        else some (fmtGE what ek (DVal.node ch))
termination_by l _ _ _ => sizeOf l
decreasing_by
  simp_wf
  have hm : (ek, DVal.node ch) ∈ l := by
    unfold boundEntry at h
    rcases last with _ | _
    · simp at h
      exact List.mem_of_mem_head? h
    · simp at h
      exact List.mem_of_mem_getLast? h
  have := List.sizeOf_lt_of_mem hm
  simp at this
  omega

/-- Modelled from the words of the specification for comparison with
`getEnd`: return the boundary element of the deepest container reachable by
repeatedly following the boundary entry while its value is itself a container
and the depth budget is nonzero, formatted per `what`. -/
def claimEndmost : List (Nat × DVal) → What → Bool → Int → Option GE
  | l, what, last, depth =>
    match h : boundEntry l last with
    | none => none
    | some (ek, DVal.leaf n) => some (fmtGE what ek (DVal.leaf n))
    | some (ek, DVal.node ch) =>
        if depth ≠ 0 then claimEndmost ch what last (depth - 1)
        else some (fmtGE what ek (DVal.node ch))
termination_by l _ _ _ => sizeOf l
decreasing_by
  simp_wf
  have hm : (ek, DVal.node ch) ∈ l := by
    unfold boundEntry at h
    rcases last with _ | _
    · simp at h
      exact List.mem_of_mem_head? h
    · simp at h
      exact List.mem_of_mem_getLast? h
  have := List.sizeOf_lt_of_mem hm
  simp at this
  omega

/-- Errors of the single-level min/max comparisons: a TypeError from
comparing a nested container (Python dicts are unordered), or the ValueError
raised by `max()`/`min()` on an empty sequence. -/
inductive CmpErr : Type where
  | typeMismatch : CmpErr
  | emptyArg : CmpErr
deriving Repr, DecidableEq

/-- The leaf contents of a value list, or `none` if any member is a nested
container (whose participation in an order comparison raises TypeError). -/
def leavesOnly : List DVal → Option (List Int)
  | [] => some []
  | DVal.leaf n :: t => (leavesOnly t).map (fun r => n :: r)
  | DVal.node _ :: _ => none

/-- The element set selected by `by_key`: the keys (Python integer keys,
modelled as the naturals cast into the integers) or the values (which must
all be leaves to be comparable). -/
def selElems (l : List (Nat × DVal)) (by_key : Bool) : Option (List Int) :=
  if by_key then some ((keysOf l).map (fun n => (n : Int))) else leavesOnly (valsOf l)

/-- `max` of a nonempty list, as a fold. -/
def lvMax (x : Int) (xs : List Int) : Int := xs.foldl max x

/-- `min` of a nonempty list, as a fold. -/
def lvMin (x : Int) (xs : List Int) : Int := xs.foldl min x

/-- `DeepOrderedDict.__lt__(self, other, cmp_max=False, by_key=False)`:
select the key or value view of the current level, take its maximum
(`cmp_max`) or minimum, and compare it with `other` using `<`. -/
def cmpLT (l : List (Nat × DVal)) (other : Int) (cmp_max by_key : Bool) :
    Except CmpErr Bool :=
  match selElems l by_key with
  | none => Except.error CmpErr.typeMismatch
  | some [] => Except.error CmpErr.emptyArg
  | some (x :: xs) =>
      Except.ok (decide ((if cmp_max then lvMax x xs else lvMin x xs) < other))

/-- `DeepOrderedDict.__gt__(self, other, cmp_max=False, by_key=False)`:
identical to `cmpLT` with the relation `>`. -/
def cmpGT (l : List (Nat × DVal)) (other : Int) (cmp_max by_key : Bool) :
    Except CmpErr Bool :=
  match selElems l by_key with
  | none => Except.error CmpErr.typeMismatch
  | some [] => Except.error CmpErr.emptyArg
  | some (x :: xs) =>
      Except.ok (decide ((if cmp_max then lvMax x xs else lvMin x xs) > other))

mutual
/-- Well-formedness of a value: every level of a nested container has
pairwise distinct keys (the standard dict invariant). -/
def wfV : DVal → Bool
  | DVal.leaf _ => true
  | DVal.node l => wfE l
termination_by v => (sizeOf v, 0)

/-- Well-formedness of a level: distinct keys here and in every sublevel. -/
def wfE : List (Nat × DVal) → Bool
  | l => decide ((keysOf l).Nodup) && wfAll l
termination_by l => (sizeOf l, 2)

/-- Well-formedness of every value of a level. -/
def wfAll : List (Nat × DVal) → Bool
  | [] => true
  | (_, v) :: t => wfV v && wfAll t
termination_by l => (sizeOf l, 1)
end

/-- `OccKeyAt l t j`: `t` occurs as a key at nesting level `j` of the tree
(level 0 is the current level; each step descends into a child container). -/
inductive OccKeyAt : List (Nat × DVal) → Nat → Nat → Prop where
  | here {l : List (Nat × DVal)} {t : Nat} :
      t ∈ keysOf l → OccKeyAt l t 0
  | deeper {l : List (Nat × DVal)} {t i : Nat} {ch : List (Nat × DVal)} {j : Nat} :
      (i, DVal.node ch) ∈ l → OccKeyAt ch t j → OccKeyAt l t (j + 1)

/-- `OccValAt l v j`: `v` occurs as a value at nesting level `j`. -/
inductive OccValAt : List (Nat × DVal) → DVal → Nat → Prop where
  | here {l : List (Nat × DVal)} {v : DVal} :
      v ∈ valsOf l → OccValAt l v 0
  | deeper {l : List (Nat × DVal)} {v : DVal} {i : Nat} {ch : List (Nat × DVal)} {j : Nat} :
      (i, DVal.node ch) ∈ l → OccValAt ch v j → OccValAt l v (j + 1)

/-- Level `j` lies within the depth bound `d`: every level for a negative
bound (unbounded search), otherwise the levels up to `d`. -/
def inDepth (d : Int) (j : Nat) : Prop := d < 0 ∨ (j : Int) ≤ d

mutual
/-- Pointwise reordering witness between two values: equal leaves, or nodes
whose levels are related entry by entry followed by a permutation. -/
inductive PWV : DVal → DVal → Prop where
  | leaf (n : Int) : PWV (DVal.leaf n) (DVal.leaf n)
  | node {l l0 l1 : List (Nat × DVal)} :
      PWE l l0 → List.Perm l0 l1 → PWV (DVal.node l) (DVal.node l1)

/-- Entry-by-entry reordering witness: same keys in the same positions, each
value related by `PWV`. -/
inductive PWE : List (Nat × DVal) → List (Nat × DVal) → Prop where
  | nil : PWE [] []
  | cons {k : Nat} {v w : DVal} {t u : List (Nat × DVal)} :
      PWV v w → PWE t u → PWE ((k, v) :: t) ((k, w) :: u)
end

/-- `Reord l l1`: `l1` carries exactly the entries of `l` — same key set,
each key bound to a value that differs from its old value only by such
reorderings further down — with the level order permuted. -/
def Reord (l l1 : List (Nat × DVal)) : Prop :=
  ∃ l0, PWE l l0 ∧ List.Perm l0 l1

/-- Step 1 of `move_to_end`: the single-level move with a swallowed KeyError,
together with the `moved` flag it sets. -/
def step1 (l : List (Nat × DVal)) (key : Nat) (last : Bool) :
    List (Nat × DVal) × Bool :=
  match odMoveToEnd l key last with
  | some l1 => (l1, true)
  | none => (l, false)

/-- The condition the walk tests on a snapshot entry: its value is a
container holding `key` among its immediate keys. -/
def isTrigB (key : Nat) (e : Nat × DVal) : Bool :=
  match e.2 with
  | DVal.node ch => decide (key ∈ keysOf ch)
  | DVal.leaf _ => false

/-- The effect of one triggered walk step on the entry itself: the child is
recursively moved with the decremented depth budget. -/
def procV (key : Nat) (last : Bool) (depth : Int) (e : Nat × DVal) : Nat × DVal :=
  match e.2 with
  | DVal.node ch => (e.1, DVal.node ((dMove ch key last (depth - 1)).1))
  | DVal.leaf n => (e.1, DVal.leaf n)

/-- The entries of a level whose keys are not in `ks`, in unchanged order. -/
def remaining (st : List (Nat × DVal)) (ks : List Nat) : List (Nat × DVal) :=
  st.filter (fun e => decide (e.1 ∉ ks))

/-- The keys of the snapshot entries that trigger the cascade, in discovery
(snapshot) order. -/
def trigKeys (key : Nat) (snap : List (Nat × DVal)) : List Nat :=
  keysOf (snap.filter (isTrigB key))

/-- The triggered snapshot entries after their recursive move, in discovery
order. -/
def procList (key : Nat) (last : Bool) (depth : Int) (snap : List (Nat × DVal)) :
    List (Nat × DVal) :=
  (snap.filter (isTrigB key)).map (procV key last depth)

/-! Basic lemmas about the level primitives. -/

theorem keysOf_cons (e : Nat × DVal) (t : List (Nat × DVal)) :
    keysOf (e :: t) = e.1 :: keysOf t := rfl

theorem keysOf_append (a b : List (Nat × DVal)) :
    keysOf (a ++ b) = keysOf a ++ keysOf b := by
  simp [keysOf]

theorem mem_keysOf {l : List (Nat × DVal)} {k : Nat} :
    k ∈ keysOf l ↔ ∃ v, (k, v) ∈ l := by
  simp only [keysOf, List.mem_map]
  constructor
  · rintro ⟨⟨a, v⟩, hm, rfl⟩
    exact ⟨v, hm⟩
  · rintro ⟨v, hm⟩
    exact ⟨(k, v), hm, rfl⟩

theorem lookupFirst_eq_none {l : List (Nat × DVal)} {k : Nat} :
    lookupFirst l k = none ↔ k ∉ keysOf l := by
  induction l with
  | nil => simp [lookupFirst, keysOf]
  | cons e t ih =>
      obtain ⟨a, v⟩ := e
      by_cases hak : a = k
      · subst hak
        simp [lookupFirst, keysOf]
      · simp [lookupFirst, hak, keysOf, ih]
        intro h
        exact fun hh => hak hh.symm

theorem lookupFirst_isSome {l : List (Nat × DVal)} {k : Nat} :
    (lookupFirst l k).isSome ↔ k ∈ keysOf l := by
  rcases h : lookupFirst l k with _ | v
  · simpa using lookupFirst_eq_none.mp h
  · simp only [Option.isSome_some, true_iff]
    by_contra hk
    rw [lookupFirst_eq_none.mpr hk] at h
    cases h

theorem lookupFirst_mem {l : List (Nat × DVal)} {k : Nat} {v : DVal}
    (h : lookupFirst l k = some v) : (k, v) ∈ l := by
  induction l with
  | nil => cases h
  | cons e t ih =>
      obtain ⟨a, w⟩ := e
      by_cases hak : a = k
      · subst hak
        simp [lookupFirst] at h
        subst h
        exact List.mem_cons_self _ _
      · simp [lookupFirst, hak] at h
        exact List.mem_cons_of_mem _ (ih h)

theorem nodup_lookupFirst {l : List (Nat × DVal)} (hnd : (keysOf l).Nodup)
    {k : Nat} {v : DVal} (hm : (k, v) ∈ l) : lookupFirst l k = some v := by
  induction l with
  | nil => cases hm
  | cons e t ih =>
      obtain ⟨a, w⟩ := e
      rw [keysOf_cons] at hnd
      rcases List.mem_cons.mp hm with heq | hmt
      · rw [← heq]
        simp [lookupFirst]
      · have hka : a ≠ k := by
          intro heq2
          subst heq2
          exact (List.nodup_cons.mp hnd).1 (mem_keysOf.mpr ⟨v, hmt⟩)
        simp [lookupFirst, hka]
        exact ih (List.nodup_cons.mp hnd).2 hmt

theorem eraseKeyFirst_of_not_mem {l : List (Nat × DVal)} {k : Nat}
    (h : k ∉ keysOf l) : eraseKeyFirst l k = l := by
  induction l with
  | nil => rfl
  | cons e t ih =>
      obtain ⟨a, v⟩ := e
      rw [keysOf_cons] at h
      have hak : a ≠ k := fun hh => h (hh ▸ List.mem_cons_self _ _)
      simp [eraseKeyFirst, hak]
      exact ih (fun hh => h (List.mem_cons_of_mem _ hh))

theorem cons_eraseKeyFirst_perm {l : List (Nat × DVal)} {k : Nat} {v : DVal}
    (h : lookupFirst l k = some v) :
    List.Perm ((k, v) :: eraseKeyFirst l k) l := by
  induction l with
  | nil => cases h
  | cons e t ih =>
      obtain ⟨a, w⟩ := e
      by_cases hak : a = k
      · subst hak
        simp [lookupFirst] at h
        subst h
        simp [eraseKeyFirst]
      · simp [lookupFirst, hak] at h
        simp [eraseKeyFirst, hak]
        exact (List.Perm.swap (a, w) (k, v) (eraseKeyFirst t k)).trans
          (List.Perm.cons _ (ih h))

theorem lookupFirst_eraseKeyFirst {l : List (Nat × DVal)} {i j : Nat}
    (hij : j ≠ i) : lookupFirst (eraseKeyFirst l i) j = lookupFirst l j := by
  induction l with
  | nil => rfl
  | cons e t ih =>
      obtain ⟨a, v⟩ := e
      by_cases hai : a = i
      · subst hai
        have haj : a ≠ j := by omega
        simp [eraseKeyFirst, lookupFirst, haj]
      · by_cases haj : a = j
        · subst haj
          simp [eraseKeyFirst, hai, lookupFirst]
        · simp [eraseKeyFirst, hai, lookupFirst, haj, ih]

theorem keysOf_eraseKeyFirst_nodup {l : List (Nat × DVal)}
    (hnd : (keysOf l).Nodup) {k : Nat} : k ∉ keysOf (eraseKeyFirst l k) := by
  induction l with
  | nil => simp [eraseKeyFirst, keysOf]
  | cons e t ih =>
      obtain ⟨a, v⟩ := e
      rw [keysOf_cons] at hnd
      by_cases hak : a = k
      · subst hak
        simp [eraseKeyFirst]
        exact (List.nodup_cons.mp hnd).1
      · simp [eraseKeyFirst, hak, keysOf_cons]
        constructor
        · exact fun hh => hak hh.symm
        · exact ih (List.nodup_cons.mp hnd).2

theorem eraseKeyFirst_eq_filter {l : List (Nat × DVal)}
    (hnd : (keysOf l).Nodup) (k : Nat) :
    eraseKeyFirst l k = l.filter (fun e => decide (e.1 ≠ k)) := by
  induction l with
  | nil => rfl
  | cons e t ih =>
      obtain ⟨a, v⟩ := e
      rw [keysOf_cons] at hnd
      by_cases hak : a = k
      · subst hak
        simp [eraseKeyFirst, List.filter]
        rw [List.filter_eq_self.mpr]
        intro e hm
        have : e.1 ∈ keysOf t := mem_keysOf.mpr ⟨e.2, by simpa using hm⟩
        have hne : e.1 ≠ a := by
          intro hh
          exact (List.nodup_cons.mp hnd).1 (hh ▸ this)
        simpa using hne
      · simp [eraseKeyFirst, hak, List.filter]
        simpa using ih (List.nodup_cons.mp hnd).2

theorem keysOf_setFirst (l : List (Nat × DVal)) (k : Nat) (w : DVal) :
    keysOf (setFirst l k w) = keysOf l := by
  induction l with
  | nil => rfl
  | cons e t ih =>
      obtain ⟨a, v⟩ := e
      by_cases hak : a = k
      · simp [setFirst, hak, keysOf_cons]
      · simp [setFirst, hak, keysOf_cons, ih]

theorem lookupFirst_setFirst_self {l : List (Nat × DVal)} {k : Nat}
    (hk : k ∈ keysOf l) (w : DVal) : lookupFirst (setFirst l k w) k = some w := by
  induction l with
  | nil => cases hk
  | cons e t ih =>
      obtain ⟨a, v⟩ := e
      by_cases hak : a = k
      · subst hak
        simp [setFirst, lookupFirst]
      · rw [keysOf_cons] at hk
        have hkt : k ∈ keysOf t := by
          rcases List.mem_cons.mp hk with hh | hh
          · exact absurd hh.symm hak
          · exact hh
        simp [setFirst, hak, lookupFirst, ih hkt]

theorem lookupFirst_setFirst_ne {l : List (Nat × DVal)} {k j : Nat}
    (hjk : j ≠ k) (w : DVal) : lookupFirst (setFirst l k w) j = lookupFirst l j := by
  induction l with
  | nil => rfl
  | cons e t ih =>
      obtain ⟨a, v⟩ := e
      by_cases hak : a = k
      · subst hak
        have haj : a ≠ j := by omega
        simp [setFirst, lookupFirst, haj]
      · by_cases haj : a = j
        · subst haj
          simp [setFirst, hak, lookupFirst]
        · simp [setFirst, hak, lookupFirst, haj, ih]

theorem eraseKeyFirst_setFirst (l : List (Nat × DVal)) (k : Nat) (w : DVal) :
    eraseKeyFirst (setFirst l k w) k = eraseKeyFirst l k := by
  induction l with
  | nil => rfl
  | cons e t ih =>
      obtain ⟨a, v⟩ := e
      by_cases hak : a = k
      · simp [setFirst, hak, eraseKeyFirst]
      · simp [setFirst, hak, eraseKeyFirst, ih]

theorem lookupFirst_append (a b : List (Nat × DVal)) (k : Nat) :
    lookupFirst (a ++ b) k =
      match lookupFirst a k with
      | some v => some v
      | none => lookupFirst b k := by
  induction a with
  | nil => simp [lookupFirst]
  | cons e t ih =>
      obtain ⟨x, v⟩ := e
      by_cases hxk : x = k
      · simp [lookupFirst, hxk]
      · simp [lookupFirst, hxk, ih]

/-! Lemmas about the single-level move and step 1. -/

theorem odMoveToEnd_eq_none {l : List (Nat × DVal)} {k : Nat} {last : Bool} :
    odMoveToEnd l k last = none ↔ k ∉ keysOf l := by
  unfold odMoveToEnd
  rcases h : lookupFirst l k with _ | v
  · simpa using lookupFirst_eq_none.mp h
  · simp only []
    constructor
    · intro hh; cases hh
    · intro hk
      rw [lookupFirst_eq_none.mpr hk] at h
      cases h

theorem odMoveToEnd_of_lookup {l : List (Nat × DVal)} {k : Nat} {v : DVal}
    (h : lookupFirst l k = some v) (last : Bool) :
    odMoveToEnd l k last =
      some (if last then eraseKeyFirst l k ++ [(k, v)] else (k, v) :: eraseKeyFirst l k) := by
  unfold odMoveToEnd
  rw [h]

theorem odMoveToEnd_perm {l l1 : List (Nat × DVal)} {k : Nat} {last : Bool}
    (h : odMoveToEnd l k last = some l1) : List.Perm l1 l := by
  unfold odMoveToEnd at h
  rcases hl : lookupFirst l k with _ | v
  · rw [hl] at h; cases h
  · rw [hl] at h
    simp only [Option.some.injEq] at h
    rcases last with _ | _
    · simp at h
      rw [← h]
      exact cons_eraseKeyFirst_perm hl
    · simp at h
      rw [← h]
      exact (List.perm_append_singleton _ _).trans (cons_eraseKeyFirst_perm hl)

theorem step1_of_not_mem {l : List (Nat × DVal)} {key : Nat} (last : Bool)
    (h : key ∉ keysOf l) : step1 l key last = (l, false) := by
  unfold step1
  rw [odMoveToEnd_eq_none.mpr h]

theorem step1_of_lookup {l : List (Nat × DVal)} {key : Nat} {v : DVal}
    (h : lookupFirst l key = some v) (last : Bool) :
    step1 l key last =
      (if last then eraseKeyFirst l key ++ [(key, v)] else (key, v) :: eraseKeyFirst l key,
       true) := by
  unfold step1
  rw [odMoveToEnd_of_lookup h]

theorem step1_perm (l : List (Nat × DVal)) (key : Nat) (last : Bool) :
    List.Perm (step1 l key last).1 l := by
  unfold step1
  rcases h : odMoveToEnd l key last with _ | l1
  · exact List.Perm.refl l
  · exact odMoveToEnd_perm h

theorem step1_moved (l : List (Nat × DVal)) (key : Nat) (last : Bool) :
    (step1 l key last).2 = decide (key ∈ keysOf l) := by
  unfold step1
  rcases h : odMoveToEnd l key last with _ | l1
  · simp [odMoveToEnd_eq_none.mp h]
  · have : key ∈ keysOf l := by
      by_contra hk
      rw [odMoveToEnd_eq_none.mpr hk] at h
      cases h
    simp [this]

/-- Unfolding of `dMove` through `step1`. -/
theorem dMove_eq (l : List (Nat × DVal)) (key : Nat) (last : Bool) (depth : Int) :
    dMove l key last depth =
      if depth = 0 then step1 l key last
      else dLoop (step1 l key last).1 (step1 l key last).1 (step1 l key last).2
             key last depth := by
  unfold dMove step1
  rcases h : odMoveToEnd l key last with _ | l1 <;> simp

/-! The moved flag computed by the walk. -/

theorem any_isTrigB_iff {snap : List (Nat × DVal)} {key : Nat} :
    snap.any (isTrigB key) = true ↔
      ∃ i ch, (i, DVal.node ch) ∈ snap ∧ key ∈ keysOf ch := by
  rw [List.any_eq_true]
  constructor
  · rintro ⟨⟨i, v⟩, hm, ht⟩
    rcases v with n | ch
    · simp [isTrigB] at ht
    · simp [isTrigB] at ht
      exact ⟨i, ch, hm, ht⟩
  · rintro ⟨i, ch, hm, hk⟩
    exact ⟨(i, DVal.node ch), hm, by simp [isTrigB, hk]⟩

/-- Unfolding of one walk step: empty snapshot. -/
theorem dLoop_nil (st : List (Nat × DVal)) (mv : Bool) (key : Nat) (last : Bool)
    (depth : Int) : dLoop [] st mv key last depth = (st, mv) := by
  rw [dLoop]

/-- Unfolding of one walk step: a leaf entry is skipped. -/
theorem dLoop_cons_leaf (i : Nat) (n : Int) (rest st : List (Nat × DVal)) (mv : Bool)
    (key : Nat) (last : Bool) (depth : Int) :
    dLoop ((i, DVal.leaf n) :: rest) st mv key last depth =
      dLoop rest st mv key last depth := by
  rw [dLoop]
  simp

/-- Unfolding of one walk step: a container entry without the key is skipped. -/
theorem dLoop_cons_node_neg {key : Nat} {ch : List (Nat × DVal)}
    (h : key ∉ keysOf ch) (i : Nat) (rest st : List (Nat × DVal)) (mv last : Bool)
    (depth : Int) :
    dLoop ((i, DVal.node ch) :: rest) st mv key last depth =
      dLoop rest st mv key last depth := by
  rw [dLoop]
  simp [h]

/-- Unfolding of one walk step: a container entry holding the key triggers the
recursive move of the child followed by the single-level move of the entry. -/
theorem dLoop_cons_node_pos {key : Nat} {ch : List (Nat × DVal)}
    (h : key ∈ keysOf ch) (i : Nat) (rest st : List (Nat × DVal)) (mv last : Bool)
    (depth : Int) :
    dLoop ((i, DVal.node ch) :: rest) st mv key last depth =
      dLoop rest
        (match odMoveToEnd (setFirst st i (DVal.node ((dMove ch key last (depth - 1)).1))) i last with
         | some s => s
         | none => setFirst st i (DVal.node ((dMove ch key last (depth - 1)).1)))
        true key last depth := by
  rw [dLoop]
  simp [h]

theorem dLoop_moved (snap : List (Nat × DVal)) (key : Nat) (last : Bool) (depth : Int) :
    ∀ (st : List (Nat × DVal)) (mv : Bool),
      (dLoop snap st mv key last depth).2 = (mv || snap.any (isTrigB key)) := by
  induction snap with
  | nil => intro st mv; simp [dLoop]
  | cons e rest ih =>
      intro st mv
      obtain ⟨i, v⟩ := e
      rcases v with n | ch
      · rw [dLoop_cons_leaf]
        simp [isTrigB, ih]
      · by_cases hk : key ∈ keysOf ch
        · rw [dLoop_cons_node_pos hk]
          rw [ih]
          simp [isTrigB, hk]
        · rw [dLoop_cons_node_neg hk]
          rw [ih]
          simp [isTrigB, hk]

theorem dLoop_no_trigger {snap : List (Nat × DVal)} {key : Nat}
    (h : snap.any (isTrigB key) = false) (st : List (Nat × DVal)) (mv : Bool)
    (last : Bool) (depth : Int) : dLoop snap st mv key last depth = (st, mv) := by
  induction snap with
  | nil => simp [dLoop]
  | cons e rest ih =>
      obtain ⟨i, v⟩ := e
      simp only [List.any_cons, Bool.or_eq_false_iff] at h
      rcases v with n | ch
      · rw [dLoop_cons_leaf]
        exact ih h.2
      · have hk : key ∉ keysOf ch := by
          have := h.1
          simp [isTrigB] at this
          exact this
        rw [dLoop_cons_node_neg hk]
        exact ih h.2

/-! Lemmas about the closed-form components. -/

theorem remaining_nil_keys (st : List (Nat × DVal)) : remaining st [] = st := by
  unfold remaining
  rw [List.filter_eq_self.mpr]
  intro e _
  simp

theorem remaining_append (a b : List (Nat × DVal)) (T : List Nat) :
    remaining (a ++ b) T = remaining a T ++ remaining b T := by
  unfold remaining
  rw [List.filter_append]

theorem remaining_filter_ne (st : List (Nat × DVal)) (i : Nat) (T : List Nat) :
    remaining (st.filter (fun e => decide (e.1 ≠ i))) T = remaining st (i :: T) := by
  unfold remaining
  rw [List.filter_filter]
  apply List.filter_congr
  intro e _
  simp [List.mem_cons, not_or]
  rw [Bool.and_comm]

theorem trigKeys_subset {x key : Nat} {snap : List (Nat × DVal)}
    (h : x ∈ trigKeys key snap) : x ∈ keysOf snap := by
  unfold trigKeys keysOf at *
  simp only [List.mem_map] at *
  obtain ⟨e, he, hx⟩ := h
  exact ⟨e, (List.mem_filter.mp he).1, hx⟩

/-- A triggered walk step in terms of the resulting state. -/
theorem dLoop_step {key : Nat} {ch : List (Nat × DVal)} (hk : key ∈ keysOf ch)
    {st st2 : List (Nat × DVal)} {i : Nat} {last : Bool} {depth : Int}
    (hod : odMoveToEnd (setFirst st i (DVal.node ((dMove ch key last (depth - 1)).1)))
        i last = some st2)
    (rest : List (Nat × DVal)) (mv : Bool) :
    dLoop ((i, DVal.node ch) :: rest) st mv key last depth =
      dLoop rest st2 true key last depth := by
  rw [dLoop_cons_node_pos hk, hod]

/-- Bindings of the other keys survive the triggered step. -/
theorem lookupFirst_move_ne {st : List (Nat × DVal)} {i j : Nat} (hne : j ≠ i)
    {w : DVal} {st2 : List (Nat × DVal)} {last : Bool}
    (hod : odMoveToEnd (setFirst st i w) i last = some st2) :
    lookupFirst st2 j = lookupFirst st j := by
  have hset : lookupFirst (setFirst st i w) j = lookupFirst st j :=
    lookupFirst_setFirst_ne hne w
  unfold odMoveToEnd at hod
  rcases hl : lookupFirst (setFirst st i w) i with _ | v
  · rw [hl] at hod; cases hod
  · rw [hl] at hod
    simp only [Option.some.injEq] at hod
    have hera : lookupFirst (eraseKeyFirst (setFirst st i w) i) j =
        lookupFirst st j := by
      rw [lookupFirst_eraseKeyFirst hne, hset]
    rcases last with _ | _
    · simp at hod
      rw [← hod]
      simp [lookupFirst, Ne.symm hne, hera]
    · simp at hod
      rw [← hod]
      rw [lookupFirst_append, hera]
      rcases hj : lookupFirst st j with _ | u
      · simp [lookupFirst, Ne.symm hne]
      · simp

/-- The closed form of the walk over a snapshot with distinct keys whose
entries agree with the state: the triggered entries are pulled to the chosen
boundary, in discovery order, each with its child recursively moved; the
other entries keep their relative order; the moved flag records whether any
entry triggered. -/
theorem dLoop_closed (key : Nat) (last : Bool) (depth : Int) :
    ∀ (snap st : List (Nat × DVal)) (mv : Bool),
      (keysOf snap).Nodup →
      (∀ p ∈ snap, lookupFirst st p.1 = some p.2) →
      (keysOf st).Nodup →
      dLoop snap st mv key last depth =
        (if last then remaining st (trigKeys key snap) ++ procList key last depth snap
         else (procList key last depth snap).reverse ++ remaining st (trigKeys key snap),
         mv || snap.any (isTrigB key)) := by
  intro snap
  induction snap with
  | nil =>
      intro st mv _ _ _
      simp [dLoop_nil, trigKeys, procList, remaining_nil_keys, keysOf]
  | cons e rest ih =>
      intro st mv h1 h2 h3
      obtain ⟨i, v⟩ := e
      rw [keysOf_cons] at h1
      have h1r : (keysOf rest).Nodup := (List.nodup_cons.mp h1).2
      have h1i : i ∉ keysOf rest := (List.nodup_cons.mp h1).1
      rcases v with n | ch
      · rw [dLoop_cons_leaf]
        rw [ih st mv h1r (fun p hp => h2 p (List.mem_cons_of_mem _ hp)) h3]
        simp [trigKeys, procList, isTrigB]
      · by_cases hk : key ∈ keysOf ch
        · -- the entry triggers the cascade
          have hpi : lookupFirst st i = some (DVal.node ch) :=
            h2 (i, DVal.node ch) (List.mem_cons_self _ _)
          have hik : i ∈ keysOf st := by
            rw [← lookupFirst_isSome]
            simp [hpi]
          have hl1 : lookupFirst
              (setFirst st i (DVal.node ((dMove ch key last (depth - 1)).1))) i =
              some (DVal.node ((dMove ch key last (depth - 1)).1)) :=
            lookupFirst_setFirst_self hik _
          have hod := odMoveToEnd_of_lookup hl1 last
          rw [dLoop_step hk hod rest mv]
          have hers : eraseKeyFirst
              (setFirst st i (DVal.node ((dMove ch key last (depth - 1)).1))) i =
              eraseKeyFirst st i := eraseKeyFirst_setFirst st i _
          -- invariants for the tail call
          have hperm2 : List.Perm (keysOf
              (if last then
                eraseKeyFirst (setFirst st i (DVal.node ((dMove ch key last (depth - 1)).1))) i
                  ++ [(i, DVal.node ((dMove ch key last (depth - 1)).1))]
               else (i, DVal.node ((dMove ch key last (depth - 1)).1)) ::
                eraseKeyFirst (setFirst st i (DVal.node ((dMove ch key last (depth - 1)).1))) i))
              (keysOf st) := by
            have hp := odMoveToEnd_perm hod
            have := hp.map Prod.fst
            unfold keysOf
            refine this.trans ?_
            have := keysOf_setFirst st i (DVal.node ((dMove ch key last (depth - 1)).1))
            unfold keysOf at this
            rw [this]
          have h3r : (keysOf
              (if last then
                eraseKeyFirst (setFirst st i (DVal.node ((dMove ch key last (depth - 1)).1))) i
                  ++ [(i, DVal.node ((dMove ch key last (depth - 1)).1))]
               else (i, DVal.node ((dMove ch key last (depth - 1)).1)) ::
                eraseKeyFirst (setFirst st i (DVal.node ((dMove ch key last (depth - 1)).1))) i)).Nodup :=
            hperm2.nodup_iff.mpr h3
          have h2r : ∀ p ∈ rest, lookupFirst
              (if last then
                eraseKeyFirst (setFirst st i (DVal.node ((dMove ch key last (depth - 1)).1))) i
                  ++ [(i, DVal.node ((dMove ch key last (depth - 1)).1))]
               else (i, DVal.node ((dMove ch key last (depth - 1)).1)) ::
                eraseKeyFirst (setFirst st i (DVal.node ((dMove ch key last (depth - 1)).1))) i)
              p.1 = some p.2 := by
            intro p hp
            have hpmem : p.1 ∈ keysOf rest := mem_keysOf.mpr ⟨p.2, hp⟩
            have hne : p.1 ≠ i := fun hh => h1i (hh ▸ hpmem)
            rw [lookupFirst_move_ne hne hod]
            exact h2 p (List.mem_cons_of_mem _ hp)
          rw [ih _ true h1r h2r h3r]
          -- i is not among the keys the tail walk will pull out
          have hiT : i ∉ trigKeys key rest := fun hh => h1i (trigKeys_subset hh)
          -- evaluate the remaining components of the target formula
          have htK : trigKeys key ((i, DVal.node ch) :: rest) = i :: trigKeys key rest := by
            simp [trigKeys, isTrigB, hk, keysOf_cons]
          have hpL : procList key last depth ((i, DVal.node ch) :: rest) =
              (i, DVal.node ((dMove ch key last (depth - 1)).1)) ::
                procList key last depth rest := by
            simp [procList, isTrigB, hk, procV]
          have hEfil : eraseKeyFirst st i = st.filter (fun e => decide (e.1 ≠ i)) :=
            eraseKeyFirst_eq_filter h3 i
          have hrem1 : remaining (eraseKeyFirst st i) (trigKeys key rest) =
              remaining st (i :: trigKeys key rest) := by
            rw [hEfil, remaining_filter_ne]
          have hrems : remaining [(i, DVal.node ((dMove ch key last (depth - 1)).1))]
              (trigKeys key rest) =
              [(i, DVal.node ((dMove ch key last (depth - 1)).1))] := by
            unfold remaining
            simp [hiT]
          have hconsrem : ∀ (w : DVal) (st3 : List (Nat × DVal)),
              remaining ((i, w) :: st3) (trigKeys key rest) =
                (i, w) :: remaining st3 (trigKeys key rest) := by
            intro w st3
            unfold remaining
            rw [List.filter_cons]
            simp [hiT]
          rcases last with _ | _
          · -- last = false: moved entries accumulate at the front
            simp only [Bool.false_eq_true, if_false]
            rw [htK, hpL, Prod.mk.injEq]
            refine ⟨?_, by simp [isTrigB, hk]⟩
            rw [hers, hconsrem, hrem1]
            simp
          · -- last = true: moved entries accumulate at the end
            simp only [if_true]
            rw [htK, hpL, Prod.mk.injEq]
            refine ⟨?_, by simp [isTrigB, hk]⟩
            rw [hers, remaining_append, hrem1, hrems]
            simp
        · rw [dLoop_cons_node_neg hk]
          rw [ih st mv h1r (fun p hp => h2 p (List.mem_cons_of_mem _ hp)) h3]
          simp [trigKeys, procList, isTrigB, hk]

theorem keysOf_perm {a b : List (Nat × DVal)} (h : List.Perm a b) :
    List.Perm (keysOf a) (keysOf b) := h.map Prod.fst

theorem any_isTrigB_perm {key : Nat} {a b : List (Nat × DVal)} (h : List.Perm a b) :
    a.any (isTrigB key) = b.any (isTrigB key) := by
  rcases ha : a.any (isTrigB key) with _ | _
  · rcases hb : b.any (isTrigB key) with _ | _
    · rfl
    · exfalso
      rw [List.any_eq_true] at hb
      obtain ⟨x, hx, hpx⟩ := hb
      have : a.any (isTrigB key) = true := List.any_eq_true.mpr ⟨x, h.mem_iff.mpr hx, hpx⟩
      rw [ha] at this
      cases this
  · rw [List.any_eq_true] at ha
    obtain ⟨x, hx, hpx⟩ := ha
    exact (List.any_eq_true.mpr ⟨x, h.mem_iff.mp hx, hpx⟩).symm

/-- The closed form of the whole `move_to_end` body for `depth ≠ 0`, on a
level with distinct keys. -/
theorem dMove_closed {l : List (Nat × DVal)} {key : Nat} {last : Bool} {depth : Int}
    (hnd : (keysOf l).Nodup) (hd : depth ≠ 0) :
    dMove l key last depth =
      (if last then
         remaining (step1 l key last).1 (trigKeys key (step1 l key last).1)
           ++ procList key last depth (step1 l key last).1
       else
         (procList key last depth (step1 l key last).1).reverse
           ++ remaining (step1 l key last).1 (trigKeys key (step1 l key last).1),
       (step1 l key last).2 || ((step1 l key last).1).any (isTrigB key)) := by
  rw [dMove_eq, if_neg hd]
  have h1 : (keysOf (step1 l key last).1).Nodup :=
    (keysOf_perm (step1_perm l key last)).nodup_iff.mpr hnd
  exact dLoop_closed key last depth _ _ _ h1
    (fun p hp2 => nodup_lookupFirst h1 hp2) h1

/-- The moved flag computed by the whole body, on any input. -/
theorem dMove_moved (l : List (Nat × DVal)) (key : Nat) (last : Bool) (depth : Int) :
    (dMove l key last depth).2 =
      (decide (key ∈ keysOf l) ||
        (decide (depth ≠ 0) && l.any (isTrigB key))) := by
  rw [dMove_eq]
  by_cases hd : depth = 0
  · simp [hd, step1_moved]
  · simp only [hd, if_neg, if_false]
    rw [dLoop_moved, step1_moved, any_isTrigB_perm (step1_perm l key last)]
    simp [hd]

theorem moveToEnd_eq_none_iff {l : List (Nat × DVal)} {key : Nat} {last : Bool}
    {depth : Int} :
    moveToEnd l key last depth = none ↔ (dMove l key last depth).2 = false := by
  unfold moveToEnd
  rcases h : dMove l key last depth with ⟨l1, b⟩
  rcases b with _ | _ <;> simp

theorem moveToEnd_eq_some {l : List (Nat × DVal)} {key : Nat} {last : Bool}
    {depth : Int} (h : (dMove l key last depth).2 = true) :
    moveToEnd l key last depth = some (dMove l key last depth).1 := by
  unfold moveToEnd
  rcases hm : dMove l key last depth with ⟨l1, b⟩
  rw [hm] at h
  simp at h
  subst h
  rfl

/-! Occurrence characterization of the deep membership test. -/

theorem inDepth_zero (d : Int) : inDepth d 0 := by
  unfold inDepth
  omega

theorem inDepth_succ {d : Int} {j : Nat} (hd : d ≠ 0) (h : inDepth (d - 1) j) :
    inDepth d (j + 1) := by
  unfold inDepth at *
  push_cast at *
  omega

theorem inDepth_succ_rev {d : Int} {j : Nat} (h : inDepth d (j + 1)) :
    d ≠ 0 ∧ inDepth (d - 1) j := by
  unfold inDepth at *
  push_cast at *
  omega

theorem anyKeyChild_iff {l : List (Nat × DVal)} {t : Nat} {d : Int} :
    anyKeyChild l t d = true ↔
      ∃ i ch, (i, DVal.node ch) ∈ l ∧ containsKeyD ch t d = true := by
  induction l with
  | nil => simp [anyKeyChild]
  | cons e rest ihl =>
      obtain ⟨i, v⟩ := e
      rcases v with n | ch
      · rw [anyKeyChild]
        rw [ihl]
        constructor
        · rintro ⟨i0, ch0, hm, hc⟩
          exact ⟨i0, ch0, List.mem_cons_of_mem _ hm, hc⟩
        · rintro ⟨i0, ch0, hm, hc⟩
          rcases List.mem_cons.mp hm with heq | hmr
          · cases heq
          · exact ⟨i0, ch0, hmr, hc⟩
      · rw [anyKeyChild]
        simp only [Bool.or_eq_true]
        rw [ihl]
        constructor
        · rintro (hc | ⟨i0, ch0, hm, hc⟩)
          · exact ⟨i, ch, List.mem_cons_self _ _, hc⟩
          · exact ⟨i0, ch0, List.mem_cons_of_mem _ hm, hc⟩
        · rintro ⟨i0, ch0, hm, hc⟩
          rcases List.mem_cons.mp hm with heq | hmr
          · obtain ⟨h1, h2⟩ := Prod.mk.injEq .. ▸ heq
            cases h2
            exact Or.inl hc
          · exact Or.inr ⟨i0, ch0, hmr, hc⟩

theorem containsKey_occ_aux :
    ∀ (n : Nat) (l : List (Nat × DVal)) (t : Nat) (d : Int), sizeOf l ≤ n →
      (containsKeyD l t d = true ↔ ∃ j, inDepth d j ∧ OccKeyAt l t j) := by
  intro n
  induction n with
  | zero =>
      intro l t d h
      exfalso
      cases l <;> simp at h
  | succ n IH =>
      intro l t d hsz
      rw [containsKeyD]
      simp only [Bool.or_eq_true, Bool.and_eq_true, decide_eq_true_eq]
      rw [anyKeyChild_iff]
      constructor
      · rintro (⟨hd0, i, ch, hmem, hcont⟩ | hdir)
        · have hchsz : sizeOf ch ≤ n := by
            have h1 := List.sizeOf_lt_of_mem hmem
            simp at h1
            omega
          obtain ⟨j, hjd, hocc⟩ := (IH ch t (d - 1) hchsz).mp hcont
          exact ⟨j + 1, inDepth_succ hd0 hjd, OccKeyAt.deeper hmem hocc⟩
        · exact ⟨0, inDepth_zero d, OccKeyAt.here hdir⟩
      · rintro ⟨j, hjd, hocc⟩
        cases hocc with
        | here h => exact Or.inr h
        | @deeper _ _ i ch j0 hmem hocc0 =>
            obtain ⟨hd0, hjd0⟩ := inDepth_succ_rev hjd
            have hchsz : sizeOf ch ≤ n := by
              have h1 := List.sizeOf_lt_of_mem hmem
              simp at h1
              omega
            exact Or.inl ⟨hd0, i, ch, hmem,
              (IH ch t (d - 1) hchsz).mpr ⟨j0, hjd0, hocc0⟩⟩

theorem containsKey_occ_iff (l : List (Nat × DVal)) (t : Nat) (d : Int) :
    containsKeyD l t d = true ↔ ∃ j, inDepth d j ∧ OccKeyAt l t j :=
  containsKey_occ_aux (sizeOf l) l t d (Nat.le_refl _)

/-! Structural equality is lawful. -/

theorem dvalBeq_iff_aux :
    ∀ (n : Nat),
      (∀ (a b : DVal), sizeOf a ≤ n → (dvalBeq a b = true ↔ a = b)) ∧
      (∀ (x y : List (Nat × DVal)), sizeOf x ≤ n → (entsBeq x y = true ↔ x = y)) := by
  intro n
  induction n with
  | zero =>
      constructor
      · intro a b h
        exfalso
        cases a <;> simp at h
      · intro x y h
        exfalso
        cases x <;> simp at h
  | succ n IH =>
      constructor
      · intro a b hsz
        rcases a with na | la
        · rcases b with nb | lb
          · rw [dvalBeq]
            simp
          · rw [dvalBeq] <;> simp
        · rcases b with nb | lb
          · rw [dvalBeq] <;> simp
          · rw [dvalBeq]
            have hla : sizeOf la ≤ n := by
              simp at hsz
              omega
            rw [IH.2 la lb hla]
            simp
      · intro x y hsz
        rcases x with _ | ⟨⟨k, v⟩, t⟩
        · rcases y with _ | e
          · rw [entsBeq]
            simp
          · rw [entsBeq] <;> simp
        · rcases y with _ | ⟨⟨k2, w⟩, u⟩
          · rw [entsBeq] <;> simp
          · rw [entsBeq]
            simp only [Bool.and_eq_true, decide_eq_true_eq]
            have hv : sizeOf v ≤ n := by
              simp at hsz
              omega
            have ht : sizeOf t ≤ n := by
              simp at hsz
              omega
            rw [IH.1 v w hv, IH.2 t u ht]
            simp only [List.cons.injEq, Prod.mk.injEq]

theorem dvalBeq_iff {a b : DVal} : dvalBeq a b = true ↔ a = b :=
  (dvalBeq_iff_aux (sizeOf a)).1 a b (Nat.le_refl _)

theorem anyValChild_iff {l : List (Nat × DVal)} {t : DVal} {d : Int} :
    anyValChild l t d = true ↔
      ∃ i ch, (i, DVal.node ch) ∈ l ∧ containsValD ch t d = true := by
  induction l with
  | nil => simp [anyValChild]
  | cons e rest ihl =>
      obtain ⟨i, v⟩ := e
      rcases v with n | ch
      · rw [anyValChild]
        rw [ihl]
        constructor
        · rintro ⟨i0, ch0, hm, hc⟩
          exact ⟨i0, ch0, List.mem_cons_of_mem _ hm, hc⟩
        · rintro ⟨i0, ch0, hm, hc⟩
          rcases List.mem_cons.mp hm with heq | hmr
          · cases heq
          · exact ⟨i0, ch0, hmr, hc⟩
      · rw [anyValChild]
        simp only [Bool.or_eq_true]
        rw [ihl]
        constructor
        · rintro (hc | ⟨i0, ch0, hm, hc⟩)
          · exact ⟨i, ch, List.mem_cons_self _ _, hc⟩
          · exact ⟨i0, ch0, List.mem_cons_of_mem _ hm, hc⟩
        · rintro ⟨i0, ch0, hm, hc⟩
          rcases List.mem_cons.mp hm with heq | hmr
          · obtain ⟨h1, h2⟩ := Prod.mk.injEq .. ▸ heq
            cases h2
            exact Or.inl hc
          · exact Or.inr ⟨i0, ch0, hmr, hc⟩

theorem containsVal_occ_aux :
    ∀ (n : Nat) (l : List (Nat × DVal)) (t : DVal) (d : Int), sizeOf l ≤ n →
      (containsValD l t d = true ↔ ∃ j, inDepth d j ∧ OccValAt l t j) := by
  intro n
  induction n with
  | zero =>
      intro l t d h
      exfalso
      cases l <;> simp at h
  | succ n IH =>
      intro l t d hsz
      rw [containsValD]
      simp only [Bool.or_eq_true, Bool.and_eq_true, decide_eq_true_eq]
      rw [anyValChild_iff]
      have hdirect : (valsOf l).any (fun v => dvalBeq v t) = true ↔ t ∈ valsOf l := by
        rw [List.any_eq_true]
        constructor
        · rintro ⟨w, hw, hbeq⟩
          rw [dvalBeq_iff.mp hbeq] at hw
          exact hw
        · intro hm
          exact ⟨t, hm, dvalBeq_iff.mpr rfl⟩
      rw [hdirect]
      constructor
      · rintro (⟨hd0, i, ch, hmem, hcont⟩ | hdir)
        · have hchsz : sizeOf ch ≤ n := by
            have h1 := List.sizeOf_lt_of_mem hmem
            simp at h1
            omega
          obtain ⟨j, hjd, hocc⟩ := (IH ch t (d - 1) hchsz).mp hcont
          exact ⟨j + 1, inDepth_succ hd0 hjd, OccValAt.deeper hmem hocc⟩
        · exact ⟨0, inDepth_zero d, OccValAt.here hdir⟩
      · rintro ⟨j, hjd, hocc⟩
        cases hocc with
        | here h => exact Or.inr h
        | @deeper _ _ i ch j0 hmem hocc0 =>
            obtain ⟨hd0, hjd0⟩ := inDepth_succ_rev hjd
            have hchsz : sizeOf ch ≤ n := by
              have h1 := List.sizeOf_lt_of_mem hmem
              simp at h1
              omega
            exact Or.inl ⟨hd0, i, ch, hmem,
              (IH ch t (d - 1) hchsz).mpr ⟨j0, hjd0, hocc0⟩⟩

theorem containsVal_occ_iff (l : List (Nat × DVal)) (t : DVal) (d : Int) :
    containsValD l t d = true ↔ ∃ j, inDepth d j ∧ OccValAt l t j :=
  containsVal_occ_aux (sizeOf l) l t d (Nat.le_refl _)

/-! Claim theorems. -/

/-- Claim C3: the deep membership test returns true exactly when the target
occurs as a key (`by_key`) or as a value (otherwise) at some nesting level
within the depth bound — the current level is always tested, even at
`depth = 0`, every further level only while the budget has not run out, with
leaf children silently skipped; hence a key absent from every level yields
false at `depth = -1` and one present at any level yields true. -/
theorem claimC3 (l : List (Nat × DVal)) (t : Nat) (v : DVal) (d : Int) :
    (containsKeyD l t d = true ↔ ∃ j, inDepth d j ∧ OccKeyAt l t j) ∧
    (containsValD l v d = true ↔ ∃ j, inDepth d j ∧ OccValAt l v j) :=
  ⟨containsKey_occ_iff l t d, containsVal_occ_iff l v d⟩

/-- Claim C9: the plain membership operator `k in d` dispatches to the
overridden deep test with its defaults (`by_key = true`, `depth = -1`) and
therefore holds exactly when `k` is a key at the current level or at any
nesting depth below. -/
theorem claimC9 (l : List (Nat × DVal)) (k : Nat) :
    inOp l k = true ↔ ∃ j, OccKeyAt l k j := by
  unfold inOp
  rw [containsKey_occ_iff]
  constructor
  · rintro ⟨j, _, h⟩
    exact ⟨j, h⟩
  · rintro ⟨j, h⟩
    exact ⟨j, Or.inl (by norm_num), h⟩

/-- Claim C2 (amended): on a level with distinct keys, `move_to_end` raises
KeyError exactly when the key is neither present at the current level nor —
when `depth ≠ 0` — among the *immediate* keys of any child container.  The
original claim (absent from every subtree reachable within the depth bound)
is refuted by `claimC2_cex`: the existence test of the walk is the shallow
`key in [x for x in self[i].keys()]`, so a key present only at depth two is
within the bound yet the call still raises. -/
theorem claimC2 {l : List (Nat × DVal)} (key : Nat) (last : Bool) (depth : Int)
    (hnd : (keysOf l).Nodup) :
    moveToEnd l key last depth = none ↔
      ¬(key ∈ keysOf l ∨
        (depth ≠ 0 ∧ ∃ i ch, (i, DVal.node ch) ∈ l ∧ key ∈ keysOf ch)) := by
  have htrue : (dMove l key last depth).2 = true ↔
      (key ∈ keysOf l ∨
        (depth ≠ 0 ∧ ∃ i ch, (i, DVal.node ch) ∈ l ∧ key ∈ keysOf ch)) := by
    rw [dMove_moved]
    simp only [Bool.or_eq_true, Bool.and_eq_true, decide_eq_true_eq]
    rw [any_isTrigB_iff]
  rw [moveToEnd_eq_none_iff, ← htrue]
  exact Bool.eq_false_iff

/-- Claim C2 counterexample: the key 7 occurs at nesting level 2, within the
unbounded depth bound `-1`, yet the call raises KeyError — refuting the
claimed equivalence of NotFound with absence from every reachable subtree. -/
theorem claimC2_cex :
    OccKeyAt [(1, DVal.node [(2, DVal.node [(7, DVal.leaf 0)])])] 7 2 ∧
    inDepth (-1) 2 ∧
    moveToEnd [(1, DVal.node [(2, DVal.node [(7, DVal.leaf 0)])])] 7 true (-1) = none := by
  refine ⟨?_, Or.inl (by norm_num), ?_⟩
  · exact OccKeyAt.deeper (List.mem_cons_self _ _)
      (OccKeyAt.deeper (List.mem_cons_self _ _)
        (OccKeyAt.here (by simp [keysOf])))
  · rw [moveToEnd_eq_none_iff, dMove_moved]
    norm_num [keysOf, isTrigB]

/-- Claim C2 witness. -/
theorem claimC2_witness :
    (keysOf [(1, DVal.node [(7, DVal.leaf 0)]), (2, DVal.leaf 3)]).Nodup ∧
    (moveToEnd [(1, DVal.node [(7, DVal.leaf 0)]), (2, DVal.leaf 3)] 7 true (-1) = none ↔
      ¬(7 ∈ keysOf [(1, DVal.node [(7, DVal.leaf 0)]), (2, DVal.leaf 3)] ∨
        ((-1 : Int) ≠ 0 ∧ ∃ i ch,
          (i, DVal.node ch) ∈ [(1, DVal.node [(7, DVal.leaf 0)]), (2, DVal.leaf 3)] ∧
          7 ∈ keysOf ch))) :=
  ⟨by decide, claimC2 7 true (-1) (by decide)⟩

/-- Claim C5: when the key is absent from every level within the depth bound
the call raises KeyError and the tree is returned completely unchanged —
every level keeps the same entries in the same iteration order. -/
theorem claimC5 (l : List (Nat × DVal)) (key : Nat) (last : Bool) (depth : Int)
    (habs : ¬ ∃ j, inDepth depth j ∧ OccKeyAt l key j) :
    moveToEnd l key last depth = none ∧ (dMove l key last depth).1 = l := by
  have hk : key ∉ keysOf l := fun hm =>
    habs ⟨0, inDepth_zero depth, OccKeyAt.here hm⟩
  have hs1 : step1 l key last = (l, false) := step1_of_not_mem last hk
  have hres : dMove l key last depth = (l, false) := by
    by_cases hd : depth = 0
    · rw [dMove_eq, if_pos hd, hs1]
    · have hnt : l.any (isTrigB key) = false := by
        rcases ha : l.any (isTrigB key) with _ | _
        · rfl
        · exfalso
          obtain ⟨i, ch, hm, hkc⟩ := any_isTrigB_iff.mp ha
          refine habs ⟨1, ?_, OccKeyAt.deeper hm (OccKeyAt.here hkc)⟩
          unfold inDepth
          omega
      rw [dMove_eq, if_neg hd, hs1]
      exact dLoop_no_trigger hnt l false last depth
  refine ⟨moveToEnd_eq_none_iff.mpr (by rw [hres]), by rw [hres]⟩

/-- Claim C5 witness. -/
theorem claimC5_witness :
    (¬ ∃ j, inDepth (-1) j ∧ OccKeyAt [(1, DVal.node [(2, DVal.leaf 5)])] 9 j) ∧
    moveToEnd [(1, DVal.node [(2, DVal.leaf 5)])] 9 true (-1) = none ∧
    (dMove [(1, DVal.node [(2, DVal.leaf 5)])] 9 true (-1)).1 =
      [(1, DVal.node [(2, DVal.leaf 5)])] := by
  have habs : ¬ ∃ j, inDepth (-1) j ∧ OccKeyAt [(1, DVal.node [(2, DVal.leaf 5)])] 9 j := by
    intro h
    have hc := (containsKey_occ_iff [(1, DVal.node [(2, DVal.leaf 5)])] 9 (-1)).mpr h
    norm_num [containsKeyD, anyKeyChild, keysOf] at hc
  obtain ⟨h1, h2⟩ := claimC5 [(1, DVal.node [(2, DVal.leaf 5)])] 9 true (-1) habs
  exact ⟨habs, h1, h2⟩

theorem eraseKeyFirst_sublist (l : List (Nat × DVal)) (k : Nat) :
    List.Sublist (eraseKeyFirst l k) l := by
  induction l with
  | nil => simp [eraseKeyFirst]
  | cons e t ih =>
      obtain ⟨a, v⟩ := e
      by_cases hak : a = k
      · simp [eraseKeyFirst, hak]
      · simp [eraseKeyFirst, hak]
        exact ih

theorem eraseKeyFirst_append_not_mem {a : List (Nat × DVal)} {k : Nat}
    (h : k ∉ keysOf a) (b : List (Nat × DVal)) :
    eraseKeyFirst (a ++ b) k = a ++ eraseKeyFirst b k := by
  induction a with
  | nil => simp
  | cons e t ih =>
      obtain ⟨x, v⟩ := e
      rw [keysOf_cons] at h
      have hxk : x ≠ k := fun hh => h (hh ▸ List.mem_cons_self _ _)
      simp only [List.cons_append, eraseKeyFirst, hxk, if_false, List.append_eq]
      rw [ih (fun hh => h (List.mem_cons_of_mem _ hh))]

/-- Claim C7: when the key is present at the root level and nowhere inside
any subtree, `move_to_end(key, last=true, depth=-1)` leaves the root order
with the key last and all other entries in their previous relative order,
and repeating the call leaves every level exactly as after the first call
(idempotence). -/
theorem claimC7 (l : List (Nat × DVal)) (K : Nat)
    (hnd : (keysOf l).Nodup) (hroot : K ∈ keysOf l)
    (hdeep : ∀ i ch, (i, DVal.node ch) ∈ l → ¬ ∃ j, OccKeyAt ch K j) :
    ∃ v, lookupFirst l K = some v ∧
      moveToEnd l K true (-1) = some (eraseKeyFirst l K ++ [(K, v)]) ∧
      moveToEnd (eraseKeyFirst l K ++ [(K, v)]) K true (-1) =
        some (eraseKeyFirst l K ++ [(K, v)]) := by
  rcases hl : lookupFirst l K with _ | v
  · exact absurd hroot (lookupFirst_eq_none.mp hl)
  refine ⟨v, rfl, ?_, ?_⟩
  case _ =>
    -- first call
    have hs1 : step1 l K true = (eraseKeyFirst l K ++ [(K, v)], true) := by
      rw [step1_of_lookup hl true]
      simp
    have hany1 : (eraseKeyFirst l K ++ [(K, v)]).any (isTrigB K) = false := by
      rcases ha : (eraseKeyFirst l K ++ [(K, v)]).any (isTrigB K) with _ | _
      · rfl
      · exfalso
        obtain ⟨i, ch, hm, hkc⟩ := any_isTrigB_iff.mp ha
        have hml : (i, DVal.node ch) ∈ l := by
          rcases List.mem_append.mp hm with hm1 | hm2
          · exact (eraseKeyFirst_sublist l K).mem hm1
          · have heq : (i, DVal.node ch) = (K, v) := by simpa using hm2
            rw [heq]
            exact lookupFirst_mem hl
        exact hdeep i ch hml ⟨0, OccKeyAt.here hkc⟩
    have hres : dMove l K true (-1) = (eraseKeyFirst l K ++ [(K, v)], true) := by
      rw [dMove_eq, if_neg (by norm_num), hs1]
      exact dLoop_no_trigger hany1 _ true true (-1)
    rw [moveToEnd_eq_some (by rw [hres]), hres]
  case _ =>
    -- second call, on the already moved list
    have hKE : K ∉ keysOf (eraseKeyFirst l K) := keysOf_eraseKeyFirst_nodup hnd
    have hl2 : lookupFirst (eraseKeyFirst l K ++ [(K, v)]) K = some v := by
      rw [lookupFirst_append, lookupFirst_eq_none.mpr hKE]
      simp [lookupFirst]
    have hera2 : eraseKeyFirst (eraseKeyFirst l K ++ [(K, v)]) K =
        eraseKeyFirst l K := by
      rw [eraseKeyFirst_append_not_mem hKE]
      simp [eraseKeyFirst]
    have hs1b : step1 (eraseKeyFirst l K ++ [(K, v)]) K true =
        (eraseKeyFirst l K ++ [(K, v)], true) := by
      rw [step1_of_lookup hl2 true]
      simp [hera2]
    have hany1 : (eraseKeyFirst l K ++ [(K, v)]).any (isTrigB K) = false := by
      rcases ha : (eraseKeyFirst l K ++ [(K, v)]).any (isTrigB K) with _ | _
      · rfl
      · exfalso
        obtain ⟨i, ch, hm, hkc⟩ := any_isTrigB_iff.mp ha
        have hml : (i, DVal.node ch) ∈ l := by
          rcases List.mem_append.mp hm with hm1 | hm2
          · exact (eraseKeyFirst_sublist l K).mem hm1
          · have heq : (i, DVal.node ch) = (K, v) := by simpa using hm2
            rw [heq]
            exact lookupFirst_mem hl
        exact hdeep i ch hml ⟨0, OccKeyAt.here hkc⟩
    have hres : dMove (eraseKeyFirst l K ++ [(K, v)]) K true (-1) =
        (eraseKeyFirst l K ++ [(K, v)], true) := by
      rw [dMove_eq, if_neg (by norm_num), hs1b]
      exact dLoop_no_trigger hany1 _ true true (-1)
    rw [moveToEnd_eq_some (by rw [hres]), hres]

/-- Claim C7 witness. -/
theorem claimC7_witness :
    ((keysOf [(5, DVal.leaf 1), (9, DVal.node [(3, DVal.leaf 4)])]).Nodup ∧
     5 ∈ keysOf [(5, DVal.leaf 1), (9, DVal.node [(3, DVal.leaf 4)])] ∧
     (∀ i ch, (i, DVal.node ch) ∈ [(5, DVal.leaf 1), (9, DVal.node [(3, DVal.leaf 4)])] →
        ¬ ∃ j, OccKeyAt ch 5 j)) ∧
    ∃ v, lookupFirst [(5, DVal.leaf 1), (9, DVal.node [(3, DVal.leaf 4)])] 5 = some v ∧
      moveToEnd [(5, DVal.leaf 1), (9, DVal.node [(3, DVal.leaf 4)])] 5 true (-1) =
        some (eraseKeyFirst [(5, DVal.leaf 1), (9, DVal.node [(3, DVal.leaf 4)])] 5 ++ [(5, v)]) ∧
      moveToEnd (eraseKeyFirst [(5, DVal.leaf 1), (9, DVal.node [(3, DVal.leaf 4)])] 5 ++ [(5, v)])
          5 true (-1) =
        some (eraseKeyFirst [(5, DVal.leaf 1), (9, DVal.node [(3, DVal.leaf 4)])] 5 ++ [(5, v)]) := by
  have hdeep : ∀ i ch, (i, DVal.node ch) ∈ [(5, DVal.leaf 1), (9, DVal.node [(3, DVal.leaf 4)])] →
      ¬ ∃ j, OccKeyAt ch 5 j := by
    intro i ch hm hex
    have hch : ch = [(3, DVal.leaf 4)] := by
      rcases List.mem_cons.mp hm with heq | hm2
      · cases heq
      · rcases List.mem_cons.mp hm2 with heq | hm3
        · cases heq
          rfl
        · cases hm3
    subst hch
    obtain ⟨j, hocc⟩ := hex
    have hc := (containsKey_occ_iff [(3, DVal.leaf 4)] 5 (-1)).mpr
      ⟨j, Or.inl (by norm_num), hocc⟩
    norm_num [containsKeyD, anyKeyChild, keysOf] at hc
  exact ⟨⟨by decide, by decide, hdeep⟩,
    claimC7 [(5, DVal.leaf 1), (9, DVal.node [(3, DVal.leaf 4)])] 5 (by decide) (by decide) hdeep⟩

theorem keysOf_reverse (l : List (Nat × DVal)) :
    keysOf l.reverse = (keysOf l).reverse := by
  unfold keysOf
  rw [List.map_reverse]

theorem trigKeys_mem_iff {st : List (Nat × DVal)} {key x : Nat}
    (hnd : (keysOf st).Nodup) :
    x ∈ trigKeys key st ↔
      ∃ ch, lookupFirst st x = some (DVal.node ch) ∧ key ∈ keysOf ch := by
  unfold trigKeys
  constructor
  · intro hx
    obtain ⟨v, hv⟩ := mem_keysOf.mp hx
    obtain ⟨hmem, htr⟩ := List.mem_filter.mp hv
    rcases v with n | ch
    · simp [isTrigB] at htr
    · simp [isTrigB] at htr
      exact ⟨ch, nodup_lookupFirst hnd hmem, htr⟩
  · rintro ⟨ch, hl, hk⟩
    refine mem_keysOf.mpr ⟨DVal.node ch, List.mem_filter.mpr ⟨lookupFirst_mem hl, ?_⟩⟩
    simp [isTrigB, hk]

theorem trigKeys_mem_of {l : List (Nat × DVal)} {key i : Nat} {ci : List (Nat × DVal)}
    (hm : (i, DVal.node ci) ∈ l) (hk : key ∈ keysOf ci) : i ∈ trigKeys key l := by
  unfold trigKeys
  refine mem_keysOf.mpr ⟨DVal.node ci, List.mem_filter.mpr ⟨hm, ?_⟩⟩
  simp [isTrigB, hk]

theorem keysOf_remaining (st : List (Nat × DVal)) (T : List Nat) :
    keysOf (remaining st T) = (keysOf st).filter (fun x => decide (x ∉ T)) := by
  induction st with
  | nil => rfl
  | cons e t ih =>
      obtain ⟨a, v⟩ := e
      by_cases ha : a ∈ T
      · simp [remaining, keysOf, List.filter_cons, ha] at *
        simpa [remaining, keysOf] using ih
      · simp [remaining, keysOf, List.filter_cons, ha] at *
        simpa [remaining, keysOf] using ih

theorem keysOf_procList (key : Nat) (last : Bool) (depth : Int)
    (snap : List (Nat × DVal)) :
    keysOf (procList key last depth snap) = trigKeys key snap := by
  unfold procList trigKeys keysOf
  rw [List.map_map]
  apply List.map_congr_left
  intro e _
  rcases e with ⟨a, v⟩
  rcases v with n | ch <;> simp [procV]

/-- Claim C1 (amended): for `depth ≠ 0` on a level with distinct keys, the
decision that makes a child trigger the cascade is the shallow membership of
the key in the child's *immediate* key list (`trigKeys`), not a deep search;
after the call, the triggered entries sit together at the chosen boundary of
the level — after all untouched entries when `last`, before them otherwise —
in discovery order over the post-step-1 snapshot, each with its subtree
recursively moved with the decremented budget, while every other entry
(including ancestors of strictly deeper occurrences of the key) keeps its
relative position.  The original claim — a deep, unbounded existence test and
boundary placement on every path to an occurrence — is refuted by
`claimC1_cex`. -/
theorem claimC1 (l : List (Nat × DVal)) (key : Nat) (last : Bool) (depth : Int)
    (hnd : (keysOf l).Nodup) (hd : depth ≠ 0) :
    dMove l key last depth =
      (if last then
         remaining (step1 l key last).1 (trigKeys key (step1 l key last).1)
           ++ procList key last depth (step1 l key last).1
       else
         (procList key last depth (step1 l key last).1).reverse
           ++ remaining (step1 l key last).1 (trigKeys key (step1 l key last).1),
       (step1 l key last).2 || ((step1 l key last).1).any (isTrigB key)) ∧
    (∀ x, x ∈ trigKeys key (step1 l key last).1 ↔
      ∃ ch, lookupFirst (step1 l key last).1 x = some (DVal.node ch) ∧
        key ∈ keysOf ch) := by
  have h1 : (keysOf (step1 l key last).1).Nodup :=
    (keysOf_perm (step1_perm l key last)).nodup_iff.mpr hnd
  exact ⟨dMove_closed hnd hd, fun x => trigKeys_mem_iff h1⟩

/-- Claim C1 counterexample: with the key both at the root and at nesting
level 2, the call succeeds, yet the root entry 1 — the branch containing the
level-2 occurrence — stays at the head instead of the end boundary: the
cascade never fires for it because the existence test is shallow. -/
theorem claimC1_cex :
    moveToEnd
        [(1, DVal.node [(2, DVal.node [(7, DVal.leaf 0)])]),
         (7, DVal.leaf 1), (3, DVal.leaf 2)] 7 true (-1) =
      some [(1, DVal.node [(2, DVal.node [(7, DVal.leaf 0)])]),
            (3, DVal.leaf 2), (7, DVal.leaf 1)] ∧
    OccKeyAt [(1, DVal.node [(2, DVal.node [(7, DVal.leaf 0)])]),
              (7, DVal.leaf 1), (3, DVal.leaf 2)] 7 2 ∧
    ([(1, DVal.node [(2, DVal.node [(7, DVal.leaf 0)])]),
      (3, DVal.leaf 2), (7, DVal.leaf 1)] : List (Nat × DVal)).head? =
      some (1, DVal.node [(2, DVal.node [(7, DVal.leaf 0)])]) ∧
    ([(1, DVal.node [(2, DVal.node [(7, DVal.leaf 0)])]),
      (3, DVal.leaf 2), (7, DVal.leaf 1)] : List (Nat × DVal)).getLast? ≠
      some (1, DVal.node [(2, DVal.node [(7, DVal.leaf 0)])]) := by
  have hres : dMove
      [(1, DVal.node [(2, DVal.node [(7, DVal.leaf 0)])]),
       (7, DVal.leaf 1), (3, DVal.leaf 2)] 7 true (-1) =
      ([(1, DVal.node [(2, DVal.node [(7, DVal.leaf 0)])]),
        (3, DVal.leaf 2), (7, DVal.leaf 1)], true) := by
    rw [dMove_eq, if_neg (by norm_num)]
    have hs1 : step1
        [(1, DVal.node [(2, DVal.node [(7, DVal.leaf 0)])]),
         (7, DVal.leaf 1), (3, DVal.leaf 2)] 7 true =
        ([(1, DVal.node [(2, DVal.node [(7, DVal.leaf 0)])]),
          (3, DVal.leaf 2), (7, DVal.leaf 1)], true) := rfl
    rw [hs1]
    rw [dLoop_cons_node_neg (show (7 : Nat) ∉ keysOf [(2, DVal.node [(7, DVal.leaf 0)])] by decide),
        dLoop_cons_leaf, dLoop_cons_leaf, dLoop_nil]
  refine ⟨?_, ?_, rfl, ?_⟩
  · rw [moveToEnd_eq_some (by rw [hres]), hres]
  · exact OccKeyAt.deeper (List.mem_cons_self _ _)
      (OccKeyAt.deeper (List.mem_cons_self _ _)
        (OccKeyAt.here (by simp [keysOf])))
  · intro hcon
    have hg : ([(1, DVal.node [(2, DVal.node [(7, DVal.leaf 0)])]),
        (3, DVal.leaf 2), (7, DVal.leaf 1)] : List (Nat × DVal)).getLast? =
        some (7, DVal.leaf 1) := rfl
    rw [hg] at hcon
    simp at hcon

/-- Claim C1 witness. -/
theorem claimC1_witness :
    ((keysOf [(1, DVal.node [(7, DVal.leaf 0)]), (2, DVal.leaf 3)]).Nodup ∧
      (-1 : Int) ≠ 0) ∧
    (dMove [(1, DVal.node [(7, DVal.leaf 0)]), (2, DVal.leaf 3)] 7 true (-1) =
      (remaining (step1 [(1, DVal.node [(7, DVal.leaf 0)]), (2, DVal.leaf 3)] 7 true).1
          (trigKeys 7 (step1 [(1, DVal.node [(7, DVal.leaf 0)]), (2, DVal.leaf 3)] 7 true).1)
        ++ procList 7 true (-1)
            (step1 [(1, DVal.node [(7, DVal.leaf 0)]), (2, DVal.leaf 3)] 7 true).1,
       (step1 [(1, DVal.node [(7, DVal.leaf 0)]), (2, DVal.leaf 3)] 7 true).2 ||
         ((step1 [(1, DVal.node [(7, DVal.leaf 0)]), (2, DVal.leaf 3)] 7 true).1).any
           (isTrigB 7)) ∧
     ∀ x, x ∈ trigKeys 7 (step1 [(1, DVal.node [(7, DVal.leaf 0)]), (2, DVal.leaf 3)] 7 true).1 ↔
       ∃ ch, lookupFirst
           (step1 [(1, DVal.node [(7, DVal.leaf 0)]), (2, DVal.leaf 3)] 7 true).1 x =
           some (DVal.node ch) ∧ 7 ∈ keysOf ch) := by
  have h := claimC1 [(1, DVal.node [(7, DVal.leaf 0)]), (2, DVal.leaf 3)]
    7 true (-1) (by decide) (by norm_num)
  refine ⟨⟨by decide, by norm_num⟩, ?_, h.2⟩
  rw [h.1]
  simp

/-- Claim C6 (amended): when the key is held at the *immediate* level of two
distinct sibling subtrees (and is not a root key), a single call with
`depth ≠ 0` succeeds and relocates the parent entry of every such subtree to
the chosen boundary, in discovery order — the final key order is exactly the
untouched keys in their old relative order with the triggered keys appended
at the end boundary (`last = true`) or prepended reversed at the front
(`last = false`); no containing sibling stays in place.  The original claim
— that it suffices for the key to occur *anywhere* inside the sibling
subtrees — is refuted by `claimC6_cex`. -/
theorem claimC6 (l : List (Nat × DVal)) (key : Nat) (last : Bool) (depth : Int)
    (i j : Nat) (ci cj : List (Nat × DVal))
    (hnd : (keysOf l).Nodup) (hd : depth ≠ 0) (hkroot : key ∉ keysOf l)
    (hmi : (i, DVal.node ci) ∈ l) (hki : key ∈ keysOf ci)
    (hmj : (j, DVal.node cj) ∈ l) (hkj : key ∈ keysOf cj) (hij : i ≠ j) :
    ∃ l1, moveToEnd l key last depth = some l1 ∧
      keysOf l1 =
        (if last then
          (keysOf l).filter (fun x => decide (x ∉ trigKeys key l)) ++ trigKeys key l
        else
          (trigKeys key l).reverse ++
            (keysOf l).filter (fun x => decide (x ∉ trigKeys key l))) ∧
      i ∈ trigKeys key l ∧ j ∈ trigKeys key l := by
  have hs1 : step1 l key last = (l, false) := step1_of_not_mem last hkroot
  have hclosed := @dMove_closed l key last depth hnd hd
  rw [hs1] at hclosed
  have hmv : (dMove l key last depth).2 = true := by
    rw [hclosed]
    simp only [Bool.false_or]
    exact any_isTrigB_iff.mpr ⟨i, ci, hmi, hki⟩
  refine ⟨(dMove l key last depth).1, moveToEnd_eq_some hmv, ?_,
    trigKeys_mem_of hmi hki, trigKeys_mem_of hmj hkj⟩
  rw [hclosed]
  rcases last with _ | _
  · simp only [Bool.false_eq_true, if_false]
    rw [keysOf_append, keysOf_remaining, keysOf_reverse, keysOf_procList]
  · simp only [if_true]
    rw [keysOf_append, keysOf_remaining, keysOf_procList]

/-- Claim C6 counterexample: the key 7 occurs inside both sibling subtrees
(one level further down), yet the single call relocates nothing — it raises
KeyError and both parent links keep their original interior positions —
because the trigger test only inspects the immediate keys of each child. -/
theorem claimC6_cex :
    containsKeyD [(10, DVal.node [(7, DVal.leaf 0)])] 7 (-1) = true ∧
    containsKeyD [(11, DVal.node [(7, DVal.leaf 1)])] 7 (-1) = true ∧
    moveToEnd
        [(1, DVal.node [(10, DVal.node [(7, DVal.leaf 0)])]),
         (2, DVal.node [(11, DVal.node [(7, DVal.leaf 1)])])] 7 true (-1) = none ∧
    (dMove
        [(1, DVal.node [(10, DVal.node [(7, DVal.leaf 0)])]),
         (2, DVal.node [(11, DVal.node [(7, DVal.leaf 1)])])] 7 true (-1)).1 =
      [(1, DVal.node [(10, DVal.node [(7, DVal.leaf 0)])]),
       (2, DVal.node [(11, DVal.node [(7, DVal.leaf 1)])])] := by
  have hres : dMove
      [(1, DVal.node [(10, DVal.node [(7, DVal.leaf 0)])]),
       (2, DVal.node [(11, DVal.node [(7, DVal.leaf 1)])])] 7 true (-1) =
      ([(1, DVal.node [(10, DVal.node [(7, DVal.leaf 0)])]),
        (2, DVal.node [(11, DVal.node [(7, DVal.leaf 1)])])], false) := by
    rw [dMove_eq, if_neg (by norm_num)]
    have hs1 : step1
        [(1, DVal.node [(10, DVal.node [(7, DVal.leaf 0)])]),
         (2, DVal.node [(11, DVal.node [(7, DVal.leaf 1)])])] 7 true =
        ([(1, DVal.node [(10, DVal.node [(7, DVal.leaf 0)])]),
          (2, DVal.node [(11, DVal.node [(7, DVal.leaf 1)])])], false) := rfl
    rw [hs1]
    rw [dLoop_cons_node_neg (show (7 : Nat) ∉ keysOf [(10, DVal.node [(7, DVal.leaf 0)])] by decide),
        dLoop_cons_node_neg (show (7 : Nat) ∉ keysOf [(11, DVal.node [(7, DVal.leaf 1)])] by decide),
        dLoop_nil]
  refine ⟨?_, ?_, moveToEnd_eq_none_iff.mpr (by rw [hres]), by rw [hres]⟩
  · norm_num [containsKeyD, anyKeyChild, keysOf]
  · norm_num [containsKeyD, anyKeyChild, keysOf]

/-- Claim C6 witness. -/
theorem claimC6_witness :
    ((keysOf [(1, DVal.node [(7, DVal.leaf 0)]), (2, DVal.node [(7, DVal.leaf 1)]),
        (3, DVal.leaf 5)]).Nodup ∧
      (-1 : Int) ≠ 0 ∧
      7 ∉ keysOf [(1, DVal.node [(7, DVal.leaf 0)]), (2, DVal.node [(7, DVal.leaf 1)]),
        (3, DVal.leaf 5)] ∧
      (1, DVal.node [(7, DVal.leaf 0)]) ∈
        [(1, DVal.node [(7, DVal.leaf 0)]), (2, DVal.node [(7, DVal.leaf 1)]), (3, DVal.leaf 5)] ∧
      7 ∈ keysOf [(7, DVal.leaf 0)] ∧
      (2, DVal.node [(7, DVal.leaf 1)]) ∈
        [(1, DVal.node [(7, DVal.leaf 0)]), (2, DVal.node [(7, DVal.leaf 1)]), (3, DVal.leaf 5)] ∧
      7 ∈ keysOf [(7, DVal.leaf 1)] ∧ (1 : Nat) ≠ 2) ∧
    ∃ l1, moveToEnd [(1, DVal.node [(7, DVal.leaf 0)]), (2, DVal.node [(7, DVal.leaf 1)]),
        (3, DVal.leaf 5)] 7 true (-1) = some l1 ∧
      keysOf l1 =
        (if true then
          (keysOf [(1, DVal.node [(7, DVal.leaf 0)]), (2, DVal.node [(7, DVal.leaf 1)]),
            (3, DVal.leaf 5)]).filter
              (fun x => decide (x ∉ trigKeys 7 [(1, DVal.node [(7, DVal.leaf 0)]),
                (2, DVal.node [(7, DVal.leaf 1)]), (3, DVal.leaf 5)])) ++
            trigKeys 7 [(1, DVal.node [(7, DVal.leaf 0)]), (2, DVal.node [(7, DVal.leaf 1)]),
              (3, DVal.leaf 5)]
        else
          (trigKeys 7 [(1, DVal.node [(7, DVal.leaf 0)]), (2, DVal.node [(7, DVal.leaf 1)]),
            (3, DVal.leaf 5)]).reverse ++
            (keysOf [(1, DVal.node [(7, DVal.leaf 0)]), (2, DVal.node [(7, DVal.leaf 1)]),
              (3, DVal.leaf 5)]).filter
                (fun x => decide (x ∉ trigKeys 7 [(1, DVal.node [(7, DVal.leaf 0)]),
                  (2, DVal.node [(7, DVal.leaf 1)]), (3, DVal.leaf 5)]))) ∧
      1 ∈ trigKeys 7 [(1, DVal.node [(7, DVal.leaf 0)]), (2, DVal.node [(7, DVal.leaf 1)]),
        (3, DVal.leaf 5)] ∧
      2 ∈ trigKeys 7 [(1, DVal.node [(7, DVal.leaf 0)]), (2, DVal.node [(7, DVal.leaf 1)]),
        (3, DVal.leaf 5)] := by
  refine ⟨⟨by decide, by norm_num, by decide, by simp, by decide, by simp, by decide, by decide⟩, ?_⟩
  exact claimC6
    [(1, DVal.node [(7, DVal.leaf 0)]), (2, DVal.node [(7, DVal.leaf 1)]), (3, DVal.leaf 5)]
    7 true (-1) 1 2 [(7, DVal.leaf 0)] [(7, DVal.leaf 1)]
    (by decide) (by norm_num) (by decide) (by simp) (by decide) (by simp)
    (by decide) (by decide)

/-! The reordering relation and the preservation invariant of the move. -/

theorem pw_refl_aux :
    ∀ (n : Nat),
      (∀ v : DVal, sizeOf v ≤ n → PWV v v) ∧
      (∀ l : List (Nat × DVal), sizeOf l ≤ n → PWE l l) := by
  intro n
  induction n with
  | zero =>
      constructor
      · intro v h
        exfalso
        cases v <;> simp at h
      · intro l h
        exfalso
        cases l <;> simp at h
  | succ n IH =>
      constructor
      · intro v hsz
        rcases v with nv | lv
        · exact PWV.leaf nv
        · refine PWV.node (IH.2 lv ?_) (List.Perm.refl lv)
          simp at hsz
          omega
      · intro l hsz
        rcases l with _ | ⟨⟨k, v⟩, t⟩
        · exact PWE.nil
        · refine PWE.cons (IH.1 v ?_) (IH.2 t ?_) <;> (simp at hsz; omega)

theorem pwv_refl (v : DVal) : PWV v v := (pw_refl_aux (sizeOf v)).1 v (Nat.le_refl _)

theorem pwe_refl (l : List (Nat × DVal)) : PWE l l :=
  (pw_refl_aux (sizeOf l)).2 l (Nat.le_refl _)

theorem reord_of_perm {l l1 : List (Nat × DVal)} (h : List.Perm l l1) : Reord l l1 :=
  ⟨l, pwe_refl l, h⟩

theorem map_ite_perm (p : Nat × DVal → Bool) (f : Nat × DVal → Nat × DVal) :
    ∀ (l : List (Nat × DVal)),
      List.Perm (l.map (fun e => if p e then f e else e))
        (l.filter (fun e => !(p e)) ++ (l.filter p).map f) := by
  intro l
  induction l with
  | nil => simp
  | cons e t ih =>
      rcases hp : p e with _ | _
      · simp only [List.map_cons, hp, if_false, List.filter_cons, Bool.not_false,
          if_true, Bool.false_eq_true, List.cons_append]
        exact ih.cons e
      · simp only [List.map_cons, hp, if_true, List.filter_cons, Bool.not_true,
          Bool.false_eq_true, if_false]
        refine (ih.cons (f e)).trans ?_
        exact List.perm_middle.symm

theorem wfAll_mem_iff : ∀ (l : List (Nat × DVal)),
    wfAll l = true ↔ ∀ e ∈ l, wfV e.2 = true := by
  intro l
  induction l with
  | nil => simp [wfAll]
  | cons e t ih =>
      obtain ⟨k, v⟩ := e
      rw [wfAll]
      simp only [Bool.and_eq_true, ih]
      constructor
      · rintro ⟨h1, h2⟩ f hf
        rcases List.mem_cons.mp hf with heq | hm
        · rw [heq]
          exact h1
        · exact h2 f hm
      · intro h
        exact ⟨h (k, v) (List.mem_cons_self _ _),
          fun f hf => h f (List.mem_cons_of_mem _ hf)⟩

theorem wfE_iff {l : List (Nat × DVal)} :
    wfE l = true ↔ (keysOf l).Nodup ∧ ∀ e ∈ l, wfV e.2 = true := by
  rw [wfE]
  simp only [Bool.and_eq_true, decide_eq_true_eq, wfAll_mem_iff]

theorem remaining_trigKeys_self {st : List (Nat × DVal)} {key : Nat}
    (hnd : (keysOf st).Nodup) :
    remaining st (trigKeys key st) = st.filter (fun e => !(isTrigB key e)) := by
  unfold remaining
  apply List.filter_congr
  intro e he
  rcases e with ⟨a, v⟩
  rcases htr : isTrigB key (a, v) with _ | _
  · simp only [Bool.not_false]
    have hnot : a ∉ trigKeys key st := by
      intro hx
      obtain ⟨ch, hl, hk⟩ := (trigKeys_mem_iff hnd).mp hx
      have hself : lookupFirst st a = some v := nodup_lookupFirst hnd he
      rw [hself] at hl
      have hev : v = DVal.node ch := by simpa using hl
      subst hev
      simp [isTrigB, hk] at htr
    simp [hnot]
  · simp only [Bool.not_true]
    have hin : a ∈ trigKeys key st := by
      rcases v with nv | ch
      · simp [isTrigB] at htr
      · simp [isTrigB] at htr
        exact trigKeys_mem_of he htr
    simp [hin]

theorem reord_dMove_aux :
    ∀ (n : Nat) (l : List (Nat × DVal)) (key : Nat) (last : Bool) (depth : Int),
      sizeOf l ≤ n → wfE l = true → Reord l (dMove l key last depth).1 := by
  intro n
  induction n with
  | zero =>
      intro l key last depth h _
      exfalso
      cases l <;> simp at h
  | succ n IH =>
      intro l key last depth hsz hwf
      obtain ⟨hnd, hall⟩ := wfE_iff.mp hwf
      by_cases hd : depth = 0
      · rw [dMove_eq, if_pos hd]
        exact reord_of_perm (step1_perm l key last).symm
      · rw [@dMove_closed l key last depth hnd hd]
        have hperm1 := step1_perm l key last
        have hnd1 : (keysOf (step1 l key last).1).Nodup :=
          (keysOf_perm hperm1).nodup_iff.mpr hnd
        rw [remaining_trigKeys_self hnd1]
        -- the pointwise image of the original level
        have hpwe : PWE l
            (l.map (fun e => if isTrigB key e then procV key last depth e else e)) := by
          have hmem : ∀ e ∈ l, sizeOf e.2 ≤ n ∧ wfV e.2 = true := by
            intro e he
            refine ⟨?_, hall e he⟩
            have h1 := List.sizeOf_lt_of_mem he
            rcases e with ⟨a, v⟩
            simp at h1 ⊢
            omega
          clear hall hsz hwf hnd hperm1 hnd1
          induction l with
          | nil => exact PWE.nil
          | cons e t iht =>
              obtain ⟨k, v⟩ := e
              simp only [List.map_cons]
              have hev := (hmem (k, v) (List.mem_cons_self _ _))
              have htl : ∀ e ∈ t, sizeOf e.2 ≤ n ∧ wfV e.2 = true :=
                fun e he => hmem e (List.mem_cons_of_mem _ he)
              rcases htr : isTrigB key (k, v) with _ | _
              · simp only [Bool.false_eq_true, if_false]
                exact PWE.cons (pwv_refl v) (iht htl)
              · simp only [if_true]
                rcases v with nv | ch
                · simp [isTrigB] at htr
                · simp only [isTrigB, decide_eq_true_eq] at htr
                  have hch : Reord ch (dMove ch key last (depth - 1)).1 := by
                    refine IH ch key last (depth - 1) ?_ ?_
                    · have := hev.1
                      simp at this
                      omega
                    · have := hev.2
                      rw [wfV] at this
                      exact this
                  obtain ⟨c0, hc0, hcperm⟩ := hch
                  exact PWE.cons (PWV.node hc0 hcperm) (iht htl)
        refine ⟨l.map (fun e => if isTrigB key e then procV key last depth e else e),
          hpwe, ?_⟩
        -- the image is a permutation of the final state
        have hA : List.Perm
            ((step1 l key last).1.filter (fun e => !(isTrigB key e)))
            (l.filter (fun e => !(isTrigB key e))) := hperm1.filter _
        have hB : List.Perm
            (procList key last depth (step1 l key last).1)
            ((l.filter (isTrigB key)).map (procV key last depth)) := by
          unfold procList
          exact (hperm1.filter _).map _
        have hC := map_ite_perm (isTrigB key) (procV key last depth) l
        rcases last with _ | _
        · simp only [Bool.false_eq_true, if_false]
          refine hC.trans ?_
          refine List.perm_append_comm.trans ?_
          refine (hB.symm.append hA.symm).trans ?_
          exact ((List.reverse_perm _).append (List.Perm.refl _)).symm
        · simp only [if_true]
          exact hC.trans (hA.symm.append hB.symm)

/-- Claim C10: every call of `move_to_end` — succeeding or raising — returns
a state that carries exactly the entries of the input at every level: the key
set and each key-value binding survive (values changing only by the same
kind of reordering further down), and each level is merely permuted; nothing
is inserted, deleted or replaced. -/
theorem claimC10 (l : List (Nat × DVal)) (key : Nat) (last : Bool) (depth : Int)
    (hwf : wfE l = true) : Reord l (dMove l key last depth).1 :=
  reord_dMove_aux (sizeOf l) l key last depth (Nat.le_refl _) hwf

/-- Claim C10 witness. -/
theorem claimC10_witness :
    wfE [(1, DVal.node [(7, DVal.leaf 0)]), (7, DVal.leaf 2)] = true ∧
    Reord [(1, DVal.node [(7, DVal.leaf 0)]), (7, DVal.leaf 2)]
      (dMove [(1, DVal.node [(7, DVal.leaf 0)]), (7, DVal.leaf 2)] 7 true (-1)).1 := by
  have hwf : wfE [(1, DVal.node [(7, DVal.leaf 0)]), (7, DVal.leaf 2)] = true := by
    rw [wfE, wfAll, wfAll, wfAll, wfV, wfV, wfE, wfAll, wfAll, wfV]
    simp [keysOf]
  exact ⟨hwf, claimC10 _ 7 true (-1) hwf⟩

/-! Lemmas about the boundary descent. -/

theorem getEnd_none {l : List (Nat × DVal)} {last : Bool}
    (h : boundEntry l last = none) (what : What) (depth : Int) :
    getEnd l what last depth = none := by
  rw [getEnd]
  split
  · rfl
  · rename_i heq
    rw [h] at heq
    cases heq
  · rename_i heq
    rw [h] at heq
    cases heq

theorem getEnd_leaf {l : List (Nat × DVal)} {last : Bool} {ek : Nat} {n : Int}
    (h : boundEntry l last = some (ek, DVal.leaf n)) (what : What) (depth : Int) :
    getEnd l what last depth = some (fmtGE what ek (DVal.leaf n)) := by
  rw [getEnd]
  split
  · rename_i heq
    rw [h] at heq
    cases heq
  · rename_i heq
    rw [h] at heq
    simp at heq
    rw [heq.1, heq.2]
  · rename_i heq
    rw [h] at heq
    cases heq

theorem getEnd_node {l : List (Nat × DVal)} {last : Bool} {ek : Nat}
    {ch : List (Nat × DVal)} (h : boundEntry l last = some (ek, DVal.node ch))
    (what : What) {depth : Int} (hd : depth ≠ 0) :
    getEnd l what last depth =
      match getEnd ch what last (depth - 1) with
      | none => none
      | some r =>
          if truthyGE r then some r else some (fmtGE what ek (DVal.node ch)) := by
  rw [getEnd]
  split
  · rename_i heq
    rw [h] at heq
    cases heq
  · rename_i heq
    rw [h] at heq
    cases heq
  · rename_i heq
    rw [h] at heq
    simp at heq
    rw [heq.1, heq.2]
    simp [hd]

theorem getEnd_node_zero {l : List (Nat × DVal)} {last : Bool} {ek : Nat}
    {ch : List (Nat × DVal)} (h : boundEntry l last = some (ek, DVal.node ch))
    (what : What) :
    getEnd l what last 0 = some (fmtGE what ek (DVal.node ch)) := by
  rw [getEnd]
  split
  · rename_i heq
    rw [h] at heq
    cases heq
  · rename_i heq
    rw [h] at heq
    cases heq
  · rename_i heq
    rw [h] at heq
    simp at heq
    rw [heq.1, heq.2]
    simp

theorem claimEndmost_none {l : List (Nat × DVal)} {last : Bool}
    (h : boundEntry l last = none) (what : What) (depth : Int) :
    claimEndmost l what last depth = none := by
  rw [claimEndmost]
  split
  · rfl
  · rename_i heq
    rw [h] at heq
    cases heq
  · rename_i heq
    rw [h] at heq
    cases heq

theorem claimEndmost_leaf {l : List (Nat × DVal)} {last : Bool} {ek : Nat} {n : Int}
    (h : boundEntry l last = some (ek, DVal.leaf n)) (what : What) (depth : Int) :
    claimEndmost l what last depth = some (fmtGE what ek (DVal.leaf n)) := by
  rw [claimEndmost]
  split
  · rename_i heq
    rw [h] at heq
    cases heq
  · rename_i heq
    rw [h] at heq
    simp at heq
    rw [heq.1, heq.2]
  · rename_i heq
    rw [h] at heq
    cases heq

theorem claimEndmost_node {l : List (Nat × DVal)} {last : Bool} {ek : Nat}
    {ch : List (Nat × DVal)} (h : boundEntry l last = some (ek, DVal.node ch))
    (what : What) {depth : Int} (hd : depth ≠ 0) :
    claimEndmost l what last depth = claimEndmost ch what last (depth - 1) := by
  rw [claimEndmost]
  split
  · rename_i heq
    rw [h] at heq
    cases heq
  · rename_i heq
    rw [h] at heq
    cases heq
  · rename_i heq
    rw [h] at heq
    simp at heq
    rw [← heq.1, ← heq.2]
    simp [hd]

theorem claimEndmost_node_zero {l : List (Nat × DVal)} {last : Bool} {ek : Nat}
    {ch : List (Nat × DVal)} (h : boundEntry l last = some (ek, DVal.node ch))
    (what : What) :
    claimEndmost l what last 0 = some (fmtGE what ek (DVal.node ch)) := by
  rw [claimEndmost]
  split
  · rename_i heq
    rw [h] at heq
    cases heq
  · rename_i heq
    rw [h] at heq
    cases heq
  · rename_i heq
    rw [h] at heq
    simp at heq
    rw [heq.1, heq.2]
    simp

theorem getEnd_claim_aux :
    ∀ (n : Nat) (l : List (Nat × DVal)) (what : What) (last : Bool) (depth : Int)
      (r : GE), sizeOf l ≤ n →
      claimEndmost l what last depth = some r → truthyGE r = true →
      getEnd l what last depth = some r := by
  intro n
  induction n with
  | zero =>
      intro l what last depth r h
      exfalso
      cases l <;> simp at h
  | succ n IH =>
      intro l what last depth r hsz hcl htr
      rcases hb : boundEntry l last with _ | ⟨ek, ev⟩
      · rw [claimEndmost_none hb] at hcl
        cases hcl
      · rcases ev with nv | ch
        · rw [claimEndmost_leaf hb] at hcl
          rw [getEnd_leaf hb]
          exact hcl
        · by_cases hd : depth = 0
          · subst hd
            rw [claimEndmost_node_zero hb] at hcl
            rw [getEnd_node_zero hb]
            exact hcl
          · rw [claimEndmost_node hb what hd] at hcl
            have hchsz : sizeOf ch ≤ n := by
              have hm : (ek, DVal.node ch) ∈ l := by
                unfold boundEntry at hb
                rcases last with _ | _
                · simp at hb
                  exact List.mem_of_mem_head? hb
                · simp at hb
                  exact List.mem_of_mem_getLast? hb
              have h1 := List.sizeOf_lt_of_mem hm
              simp at h1
              omega
            have hch := IH ch what last (depth - 1) r hchsz hcl htr
            rw [getEnd_node hb what hd, hch]
            simp [htr]

/-- Claim C4 (amended): `get_end` follows the boundary entry while the value
is a container and the depth budget is nonzero, but prefers the recursive
result only when it is Python-truthy (`if not item:`) — so whenever the
deepest boundary element described by the specification is truthy, `get_end`
returns exactly it, and at `depth = 0` it always returns the current level
boundary entry formatted per `what`.  The unconditional original claim is
refuted by `claimC4_cex`: a falsy deep result (the integer 0) is discarded
and the current level entry is returned instead. -/
theorem claimC4 :
    (∀ (l : List (Nat × DVal)) (what : What) (last : Bool) (depth : Int) (r : GE),
      claimEndmost l what last depth = some r → truthyGE r = true →
      getEnd l what last depth = some r) ∧
    (∀ (l : List (Nat × DVal)) (what : What) (last : Bool),
      getEnd l what last 0 = claimEndmost l what last 0) := by
  constructor
  · intro l what last depth r
    exact getEnd_claim_aux (sizeOf l) l what last depth r (Nat.le_refl _)
  · intro l what last
    rcases hb : boundEntry l last with _ | ⟨ek, ev⟩
    · rw [getEnd_none hb, claimEndmost_none hb]
    · rcases ev with nv | ch
      · rw [getEnd_leaf hb, claimEndmost_leaf hb]
      · rw [getEnd_node_zero hb, claimEndmost_node_zero hb]

/-- Claim C4 counterexample: the deepest boundary value along the path is the
leaf 0; the specification says it is returned, but the code discards the
falsy recursive result and returns the current level boundary value — the
whole subtree — instead. -/
theorem claimC4_cex :
    claimEndmost [(1, DVal.node [(2, DVal.leaf 0)])] What.val true (-1) =
      some (GE.val (DVal.leaf 0)) ∧
    getEnd [(1, DVal.node [(2, DVal.leaf 0)])] What.val true (-1) =
      some (GE.val (DVal.node [(2, DVal.leaf 0)])) ∧
    GE.val (DVal.node [(2, DVal.leaf 0)]) ≠ GE.val (DVal.leaf 0) := by
  have hb : boundEntry [(1, DVal.node [(2, DVal.leaf 0)])] true =
      some (1, DVal.node [(2, DVal.leaf 0)]) := rfl
  have hbc : boundEntry [(2, DVal.leaf 0)] true = some (2, DVal.leaf 0) := rfl
  refine ⟨?_, ?_, by simp⟩
  · rw [claimEndmost_node hb What.val (by norm_num),
      claimEndmost_leaf hbc What.val]
    rfl
  · rw [getEnd_node hb What.val (by norm_num), getEnd_leaf hbc What.val]
    rfl

/-- Claim C4 witness. -/
theorem claimC4_witness :
    (claimEndmost [(1, DVal.leaf 5), (2, DVal.node [(3, DVal.leaf 7)])]
        What.key true (-1) = some (GE.key 3) ∧
      truthyGE (GE.key 3) = true) ∧
    getEnd [(1, DVal.leaf 5), (2, DVal.node [(3, DVal.leaf 7)])]
        What.key true (-1) = some (GE.key 3) := by
  have hb : boundEntry [(1, DVal.leaf 5), (2, DVal.node [(3, DVal.leaf 7)])] true =
      some (2, DVal.node [(3, DVal.leaf 7)]) := rfl
  have hbc : boundEntry [(3, DVal.leaf 7)] true = some (3, DVal.leaf 7) := rfl
  have hcl : claimEndmost [(1, DVal.leaf 5), (2, DVal.node [(3, DVal.leaf 7)])]
      What.key true (-1) = some (GE.key 3) := by
    rw [claimEndmost_node hb What.key (by norm_num), claimEndmost_leaf hbc What.key]
    rfl
  exact ⟨⟨hcl, by decide⟩,
    claimC4.1 [(1, DVal.leaf 5), (2, DVal.node [(3, DVal.leaf 7)])]
      What.key true (-1) (GE.key 3) hcl (by decide)⟩

/-! The fold computing the extremum of a level. -/

theorem lvMax_spec : ∀ (xs : List Int) (x : Int),
    lvMax x xs ∈ x :: xs ∧ ∀ y ∈ x :: xs, y ≤ lvMax x xs := by
  intro xs
  induction xs with
  | nil =>
      intro x
      refine ⟨List.mem_cons_self _ _, ?_⟩
      intro y hy
      simp at hy
      simp [lvMax, hy]
  | cons a t ih =>
      intro x
      have hstep : lvMax x (a :: t) = lvMax (max x a) t := rfl
      obtain ⟨hmem, hub⟩ := ih (max x a)
      constructor
      · rw [hstep]
        rcases List.mem_cons.mp hmem with heq | hmt
        · rcases max_choice x a with hx | ha
          · rw [heq, hx]
            exact List.mem_cons_self _ _
          · rw [heq, ha]
            exact List.mem_cons_of_mem _ (List.mem_cons_self _ _)
        · exact List.mem_cons_of_mem _ (List.mem_cons_of_mem _ hmt)
      · intro y hy
        rw [hstep]
        rcases List.mem_cons.mp hy with hyx | hy2
        · calc y = x := hyx
            _ ≤ max x a := le_max_left x a
            _ ≤ lvMax (max x a) t := hub _ (List.mem_cons_self _ _)
        · rcases List.mem_cons.mp hy2 with hya | hyt
          · calc y = a := hya
              _ ≤ max x a := le_max_right x a
              _ ≤ lvMax (max x a) t := hub _ (List.mem_cons_self _ _)
          · exact hub y (List.mem_cons_of_mem _ hyt)

theorem lvMin_spec : ∀ (xs : List Int) (x : Int),
    lvMin x xs ∈ x :: xs ∧ ∀ y ∈ x :: xs, lvMin x xs ≤ y := by
  intro xs
  induction xs with
  | nil =>
      intro x
      refine ⟨List.mem_cons_self _ _, ?_⟩
      intro y hy
      simp at hy
      simp [lvMin, hy]
  | cons a t ih =>
      intro x
      have hstep : lvMin x (a :: t) = lvMin (min x a) t := rfl
      obtain ⟨hmem, hlb⟩ := ih (min x a)
      constructor
      · rw [hstep]
        rcases List.mem_cons.mp hmem with heq | hmt
        · rcases min_choice x a with hx | ha
          · rw [heq, hx]
            exact List.mem_cons_self _ _
          · rw [heq, ha]
            exact List.mem_cons_of_mem _ (List.mem_cons_self _ _)
        · exact List.mem_cons_of_mem _ (List.mem_cons_of_mem _ hmt)
      · intro y hy
        rw [hstep]
        rcases List.mem_cons.mp hy with hyx | hy2
        · calc lvMin (min x a) t ≤ min x a := hlb _ (List.mem_cons_self _ _)
            _ ≤ x := min_le_left x a
            _ = y := hyx.symm
        · rcases List.mem_cons.mp hy2 with hya | hyt
          · calc lvMin (min x a) t ≤ min x a := hlb _ (List.mem_cons_self _ _)
              _ ≤ a := min_le_right x a
              _ = y := hya.symm
          · exact hlb y (List.mem_cons_of_mem _ hyt)

/-- Claim C8: on a non-empty level whose selected element set (the integer
keys for `by_key`, the values — all leaves — otherwise) is comparable, the
two comparison methods return exactly (extremum R other): the maximum of the
set when `cmp_max`, its minimum otherwise, compared with `<` by the
less-than method and with `>` by the greater-than method, looking only at
the immediate level; on an empty level both raise the invalid-argument
(ValueError) of `max()`/`min()` on an empty sequence. -/
theorem claimC8 (l : List (Nat × DVal)) (other : Int) (cmp_max by_key : Bool) :
    (∀ es, selElems l by_key = some es → es ≠ [] →
      ∃ m, m ∈ es ∧ (∀ y ∈ es, if cmp_max then y ≤ m else m ≤ y) ∧
        cmpLT l other cmp_max by_key = Except.ok (decide (m < other)) ∧
        cmpGT l other cmp_max by_key = Except.ok (decide (m > other))) ∧
    (l = [] → cmpLT l other cmp_max by_key = Except.error CmpErr.emptyArg ∧
      cmpGT l other cmp_max by_key = Except.error CmpErr.emptyArg) := by
  constructor
  · intro es hsel hne
    rcases es with _ | ⟨x, xs⟩
    · exact absurd rfl hne
    refine ⟨if cmp_max then lvMax x xs else lvMin x xs, ?_, ?_, ?_, ?_⟩
    · rcases cmp_max with _ | _
      · simp only [Bool.false_eq_true, if_false]
        exact (lvMin_spec xs x).1
      · simp only [if_true]
        exact (lvMax_spec xs x).1
    · intro y hy
      rcases cmp_max with _ | _
      · simp only [Bool.false_eq_true, if_false]
        exact (lvMin_spec xs x).2 y hy
      · simp only [if_true]
        exact (lvMax_spec xs x).2 y hy
    · unfold cmpLT
      rw [hsel]
    · unfold cmpGT
      rw [hsel]
  · intro hl
    subst hl
    rcases by_key with _ | _ <;>
      simp [cmpLT, cmpGT, selElems, leavesOnly, valsOf, keysOf]

/-- Claim C8 witness. -/
theorem claimC8_witness :
    (selElems [(1, DVal.leaf 5), (2, DVal.leaf 3)] false = some [5, 3] ∧
      ([5, 3] : List Int) ≠ []) ∧
    ∃ m, m ∈ ([5, 3] : List Int) ∧
      (∀ y ∈ ([5, 3] : List Int), if true then y ≤ m else m ≤ y) ∧
      cmpLT [(1, DVal.leaf 5), (2, DVal.leaf 3)] 4 true false =
        Except.ok (decide (m < 4)) ∧
      cmpGT [(1, DVal.leaf 5), (2, DVal.leaf 3)] 4 true false =
        Except.ok (decide (m > 4)) := by
  refine ⟨⟨rfl, by decide⟩, ?_⟩
  exact (claimC8 [(1, DVal.leaf 5), (2, DVal.leaf 3)] 4 true false).1
    [5, 3] rfl (by decide)
